import Mathlib

/-!
Verification of the zktrie-ng sparse binary Merkle trie library.

This file shallowly embeds the node model, the canonical node codec, the
Poseidon-facing hash helpers and the trie engine operations (lookup,
deletion, iteration) of the library, and proves the properties stated in
the specification about them.

Modelling conventions:
* bytes are `Nat`s (with `< 256` hypotheses where a claim needs them);
* `ZkHash` is a 32-byte big-endian value, modelled as a `List Nat`;
* the opaque Poseidon permutation `hash_with_domain` is a parameter
  `perm : Nat → Nat → Nat → Nat` (two field elements and a domain); its
  output is reduced modulo the BN254 scalar modulus, reflecting that the
  Rust permutation returns a field element `Fr`;
* Rust `Result` becomes `Except`, a possible panic becomes an outer
  `Option` (`none` = panic);
* write-once `OnceCell`s become `Option` fields;
* the node store `NodeDb` is modelled as a pure map `ZkHash → Option Node`
  (the Rust store is content-addressed bytes plus an rkyv view; engine
  code only observes the decoded node). Stores are passed by shared
  reference in all the embedded operations, so they can never be written
  by them; this is reflected by the model taking the store as a pure
  function.
-/

namespace ZkTrieNg

/-- The BN254 scalar field modulus (the `Fr` modulus of poseidon-bn254). -/
def pBN : Nat := 21888242871839275222246405745257275088548364400416034343698204186575808495617

/-- Interpret a little-endian byte list as a natural number. -/
def leToNat : List Nat → Nat
  | [] => 0
  | b :: bs => b + 256 * leToNat bs

/-- Little-endian bytes of `n`, `w` bytes wide (truncating above `256^w`). -/
def natToLe : Nat → Nat → List Nat
  | 0, _ => []
  | w + 1, n => n % 256 :: natToLe w (n / 256)

/-- `HASH_SIZE`: size in bytes of a `ZkHash`. -/
def HASH_SIZE : Nat := 32

/-- A 32-byte big-endian hash value. -/
abbrev ZkHash := List Nat

/-- The all-zero hash, denoting the empty subtree. -/
def zkZero : ZkHash := List.replicate HASH_SIZE 0

/-- `HASH_DOMAIN_ELEMS_BASE = 256`. -/
def HASH_DOMAIN_ELEMS_BASE : Nat := 256

/-- `HASH_DOMAIN_BYTE32 = 2 * HASH_DOMAIN_ELEMS_BASE`. -/
def HASH_DOMAIN_BYTE32 : Nat := 2 * HASH_DOMAIN_ELEMS_BASE

/-- `TRIE_MAX_LEVELS = NODE_KEY_VALID_BYTES * 8 = 248`. -/
def TRIE_MAX_LEVELS : Nat := 31 * 8

/-- Errors of the Poseidon hash scheme (`PoseidonError`). -/
inductive PoseidonError where
  | InvalidFieldElement : PoseidonError
  | InvalidByteLength (n : Nat) : PoseidonError
deriving DecidableEq

/-- `Fr::from_repr_vartime`: a 32-byte little-endian repr is a field
element iff its value is below the modulus. -/
def fr_from_repr_vartime (le : List Nat) : Option Nat :=
  if leToNat le < pBN then some (leToNat le) else none

/-- `HashOutput::from_canonical_repr` for `Fr`: reverse the big-endian
bytes and read a little-endian repr. -/
def fr_from_canonical_repr (be : ZkHash) : Option Nat :=
  fr_from_repr_vartime be.reverse

/-- `HashOutput::as_canonical_repr` for `Fr`: little-endian repr bytes,
reversed into big-endian. -/
def fr_as_canonical_repr (v : Nat) : ZkHash :=
  (natToLe 32 v).reverse

/-- `poseidon_bn254::hash_with_domain` on field elements, abstracted by the
permutation parameter `perm`; the result is a field element. -/
def hash_with_domain (perm : Nat → Nat → Nat → Nat) (a b domain : Nat) : Nat :=
  perm a b domain % pBN

/-- `Poseidon::new_hash_try_from_bytes`: left-pad to 32 bytes, check the
value is a canonical field element, return big-endian. -/
def new_hash_try_from_bytes (bytes : List Nat) : Except PoseidonError ZkHash :=
  if bytes.length > HASH_SIZE then
    .error (.InvalidByteLength bytes.length)
  else
    let h := List.replicate (HASH_SIZE - bytes.length) 0 ++ bytes
    match fr_from_canonical_repr h with
    | none => .error .InvalidFieldElement
    | some _ => .ok h

/-- `Poseidon::raw_hash`: interpret both inputs as little-endian field
elements and run the permutation with the domain. -/
def raw_hash (perm : Nat → Nat → Nat → Nat) (kind : Nat) (le0 le1 : List Nat) :
    Except PoseidonError Nat :=
  match fr_from_repr_vartime le0, fr_from_repr_vartime le1 with
  | some a, some b => .ok (hash_with_domain perm a b kind)
  | _, _ => .error .InvalidFieldElement

/-- `HashScheme::hash`: reverse each big-endian input to little-endian,
delegate to `raw_hash`, convert back to big-endian. -/
def hashH (perm : Nat → Nat → Nat → Nat) (kind : Nat) (i0 i1 : ZkHash) :
    Except PoseidonError ZkHash :=
  (raw_hash perm kind i0.reverse i1.reverse).map fr_as_canonical_repr

/-- `copy_from_slice` into `dst[start .. start + src.length]`. -/
def writeSlice (dst : List Nat) (start : Nat) (src : List Nat) : List Nat :=
  dst.take start ++ src ++ dst.drop (start + src.length)

/-- `Poseidon::hash_bytes`: split into `(v_lo, v_hi)` halves stored in the
low 16 byte positions and hash with domain `HASH_DOMAIN_BYTE32`. -/
def hash_bytes (perm : Nat → Nat → Nat → Nat) (v : List Nat) :
    Except PoseidonError ZkHash :=
  if v.length > HASH_SIZE then
    .error (.InvalidByteLength v.length)
  else
    let vLo :=
      if v.length > 16 then writeSlice zkZero 16 (v.take 16)
      else writeSlice zkZero 16 v
    let vHi :=
      if v.length > 16 then writeSlice zkZero 16 (v.drop 16)
      else zkZero
    hashH perm HASH_DOMAIN_BYTE32 vLo vHi

/-- The leaf-building loop of `HashScheme::hash_bytes_array`: for index `i`,
a preimage is hashed with `hash_bytes` when `i <= 24` and bit `i` of the
compression flag is set, and otherwise validated as a field element. -/
def hbaLeaves (perm : Nat → Nat → Nat → Nat) (flag : Nat) :
    List (List Nat) → Nat → Except PoseidonError (List ZkHash)
  | [], _ => .ok []
  | b :: rest, i =>
    match (if i ≤ 24 && (flag &&& (1 <<< i)) != 0 then hash_bytes perm b
           else new_hash_try_from_bytes b) with
    | .error e => .error e
    | .ok h =>
      match hbaLeaves perm flag rest (i + 1) with
      | .error e => .error e
      | .ok hs => .ok (h :: hs)

/-- The inner `for i in 0..length/2` loop of `hash_bytes_array`:
`hashes[i] = hash(domain, [hashes[2*i], hashes[2*i+1]])`, with out-of-bounds
accesses modelled as a panic (`none`). -/
def hbaRoundGo (perm : Nat → Nat → Nat → Nat) (domain : Nat)
    (hashes : List ZkHash) (length i : Nat) :
    Option (Except PoseidonError (List ZkHash)) :=
  if _h : i < length / 2 then
    match hashes.get? (2 * i), hashes.get? (2 * i + 1) with
    | some a, some b =>
      match hashH perm domain a b with
      | .error e => some (.error e)
      | .ok h => hbaRoundGo perm domain (hashes.set i h) length (i + 1)
    | _, _ => none
  else
    some (.ok hashes)
termination_by length / 2 - i

/-- The `while hashes.len() > 1` loop of `hash_bytes_array`: run one pairing
round in place, move the popped last element into the middle slot on odd
length, truncate, repeat. -/
def hbaLoop (perm : Nat → Nat → Nat → Nat) (domain : Nat)
    (hashes : List ZkHash) : Option (Except PoseidonError (List ZkHash)) :=
  if _h : hashes.length > 1 then
    let length := hashes.length
    match hbaRoundGo perm domain hashes length 0 with
    | none => none
    | some (.error e) => some (.error e)
    | some (.ok hs) =>
      if length % 2 != 0 then
        match hs.getLast? with
        | none => none
        | some last =>
          hbaLoop perm domain (((hs.dropLast).set (length / 2) last).take (length / 2 + length % 2))
      else
        hbaLoop perm domain (hs.take (length / 2 + length % 2))
  else
    some (.ok hashes)
termination_by hashes.length
decreasing_by
  · simp only [List.length_take]
    omega
  · simp only [List.length_take]
    omega

/-- `HashScheme::hash_bytes_array`: assert the input non-empty (panic
otherwise), build the leaf hashes, pairwise-reduce with domain
`|value_bytes| * HASH_DOMAIN_ELEMS_BASE`, return `hashes[0]`. -/
def hash_bytes_array (perm : Nat → Nat → Nat → Nat)
    (value_bytes : List (List Nat)) (compression_flag : Nat) :
    Option (Except PoseidonError ZkHash) :=
  if value_bytes.isEmpty then none
  else
    match hbaLeaves perm compression_flag value_bytes 0 with
    | .error e => some (.error e)
    | .ok hashes =>
      let domain := value_bytes.length * HASH_DOMAIN_ELEMS_BASE
      match hbaLoop perm domain hashes with
      | none => none
      | some (.error e) => some (.error e)
      | some (.ok hs) =>
        match hs.get? 0 with
        | none => none
        | some h => some (.ok h)

/-- `NodeType`: tagged node kinds of the merkle tree. -/
inductive NodeType where
  | Leaf : NodeType
  | Empty : NodeType
  | BranchLTRT : NodeType
  | BranchLTRB : NodeType
  | BranchLBRT : NodeType
  | BranchLBRB : NodeType
deriving DecidableEq

/-- The one-byte tag of each `NodeType` (`NodeType as u8`). -/
def NodeType.toU8 : NodeType → Nat
  | .Leaf => 4
  | .Empty => 5
  | .BranchLTRT => 6
  | .BranchLTRB => 7
  | .BranchLBRT => 8
  | .BranchLBRB => 9

/-- `NodeType::from_u8` (via `FromPrimitive`): only tags 4..9 are valid. -/
def NodeType.from_u8 (n : Nat) : Option NodeType :=
  if n = 4 then some .Leaf
  else if n = 5 then some .Empty
  else if n = 6 then some .BranchLTRT
  else if n = 7 then some .BranchLTRB
  else if n = 8 then some .BranchLBRT
  else if n = 9 then some .BranchLBRB
  else none

/-- `LazyNodeHash`: a resolved hash, or a reference into the dirty-branch
arena together with its write-once `resolved` cell. -/
inductive LazyNodeHash where
  | hash (h : ZkHash) : LazyNodeHash
  | lazyBranch (index : Nat) (resolved : Option ZkHash) : LazyNodeHash
deriving DecidableEq

/-- `LazyNodeHash::try_as_hash`. -/
def LazyNodeHash.try_as_hash : LazyNodeHash → Option ZkHash
  | .hash h => some h
  | .lazyBranch _ resolved => resolved

/-- `LazyNodeHash::is_zero`. -/
def LazyNodeHash.is_zero (h : LazyNodeHash) : Option Bool :=
  h.try_as_hash.map (fun x => decide (x = zkZero))

/-- `LazyNodeHash::unwrap_ref`; `none` models the panic on an unresolved
hash. -/
def LazyNodeHash.unwrap_ref (h : LazyNodeHash) : Option ZkHash :=
  h.try_as_hash

/-- `LazyNodeHash::is_resolved`. -/
def LazyNodeHash.is_resolved (h : LazyNodeHash) : Bool :=
  h.try_as_hash.isSome

/-- The `PartialEq` instance of `LazyNodeHash`: resolved hashes compare by
value, lazy references by arena index, mixed variants are unequal. -/
def LazyNodeHash.lazyEq : LazyNodeHash → LazyNodeHash → Bool
  | .hash a, .hash b => decide (a = b)
  | .lazyBranch i _, .lazyBranch j _ => decide (i = j)
  | _, _ => false

/-- `LeafNode`: key, optional key preimage, value preimages, compression
flags and the write-once value-hash cell. -/
structure LeafNode where
  node_key : ZkHash
  node_key_preimage : Option (List Nat)
  value_preimages : List (List Nat)
  compress_flags : Nat
  value_hash : Option ZkHash
deriving DecidableEq

/-- `BranchNode`: node type plus two child references. -/
structure BranchNode where
  node_type : NodeType
  child_left : LazyNodeHash
  child_right : LazyNodeHash
deriving DecidableEq

/-- `NodeKind`: the three node variants. -/
inductive NodeKind where
  | empty : NodeKind
  | leaf (l : LeafNode) : NodeKind
  | branch (b : BranchNode) : NodeKind
deriving DecidableEq

/-- `Node`: node data plus the write-once node-hash cell. -/
structure Node where
  node_hash : Option ZkHash
  data : NodeKind
deriving DecidableEq

/-- `Node::empty`: the empty node, its hash cell pre-filled with zero. -/
def Node.empty : Node :=
  { node_hash := some zkZero, data := .empty }

/-- `Node::new_branch`. -/
def Node.new_branch (node_type : NodeType) (child_left child_right : LazyNodeHash) : Node :=
  { node_hash := none
    data := .branch { node_type := node_type, child_left := child_left, child_right := child_right } }

/-- `Node::new_leaf`. -/
def Node.new_leaf (node_key : ZkHash) (value_preimages : List (List Nat))
    (compress_flags : Nat) (node_key_preimage : Option (List Nat)) : Node :=
  { node_hash := none
    data := .leaf { node_key := node_key, node_key_preimage := node_key_preimage,
                    value_preimages := value_preimages, compress_flags := compress_flags,
                    value_hash := none } }

/-- `Node::node_type`. -/
def Node.node_type (n : Node) : NodeType :=
  match n.data with
  | .empty => .Empty
  | .leaf _ => .Leaf
  | .branch b => b.node_type

/-- `Node::is_branch`. -/
def Node.is_branch (n : Node) : Bool :=
  match n.data with
  | .branch _ => true
  | _ => false

/-- `Node::as_leaf`. -/
def Node.as_leaf (n : Node) : Option LeafNode :=
  match n.data with
  | .leaf l => some l
  | _ => none

/-- `LeafNode::get_or_calc_value_hash`: the cached value hash, or
`hash_bytes_array` of the preimages. -/
def LeafNode.get_or_calc_value_hash (perm : Nat → Nat → Nat → Nat) (l : LeafNode) :
    Option (Except PoseidonError ZkHash) :=
  match l.value_hash with
  | some h => some (.ok h)
  | none => hash_bytes_array perm l.value_preimages l.compress_flags

/-- `Node::get_or_calculate_node_hash`. Branch children are unwrapped
before the cache is consulted, exactly as in the source; an unresolved
child is a panic (`none`). -/
def Node.get_or_calculate_node_hash (perm : Nat → Nat → Nat → Nat) (n : Node) :
    Option (Except PoseidonError ZkHash) :=
  match n.data with
  | .empty =>
    match n.node_hash with
    | some h => some (.ok h)
    | none => none
  | .leaf leaf =>
    match leaf.get_or_calc_value_hash perm with
    | none => none
    | some (.error e) => some (.error e)
    | some (.ok value_hash) =>
      match n.node_hash with
      | some h => some (.ok h)
      | none =>
        match hashH perm NodeType.Leaf.toU8 leaf.node_key value_hash with
        | .error e => some (.error e)
        | .ok h => some (.ok h)
  | .branch b =>
    match b.child_left.unwrap_ref, b.child_right.unwrap_ref with
    | some left, some right =>
      match n.node_hash with
      | some h => some (.ok h)
      | none =>
        match hashH perm b.node_type.toU8 left right with
        | .error e => some (.error e)
        | .ok h => some (.ok h)
    | _, _ => none

/-- `Node::canonical_value`: the canonical byte encoding; `none` models the
panic on a branch with an unresolved child. -/
def Node.canonical_value (n : Node) (include_key_preimage : Bool) : Option (List Nat) :=
  match n.data with
  | .empty => some [NodeType.Empty.toU8]
  | .leaf leaf =>
    let mark := (leaf.compress_flags * 256) % 2 ^ 32 + leaf.value_preimages.length
    let tail :=
      match include_key_preimage, leaf.node_key_preimage with
      | true, some preimage => preimage.length % 256 :: preimage
      | _, _ => [0]
    some ([NodeType.Leaf.toU8] ++ leaf.node_key ++ natToLe 4 mark
          ++ leaf.value_preimages.flatten ++ tail)
  | .branch b =>
    match b.child_left.unwrap_ref, b.child_right.unwrap_ref with
    | some l, some r => some ([b.node_type.toU8] ++ l ++ r)
    | _, _ => none

/-- Node parse errors (`ParseNodeError`). -/
inductive ParseNodeError where
  | Eof (got expected : Nat) : ParseNodeError
  | InvalidNodeType (t : Nat) : ParseNodeError
  | HashError (e : PoseidonError) : ParseNodeError
deriving DecidableEq

/-- `read_u8`: pop one byte from the stream. -/
def read_u8 : List Nat → Except ParseNodeError (Nat × List Nat)
  | [] => .error (.Eof 0 1)
  | b :: rest => .ok (b, rest)

/-- `read_u32_le`: pop four little-endian bytes. -/
def read_u32_le (bytes : List Nat) : Except ParseNodeError (Nat × List Nat) :=
  if bytes.length < 4 then .error (.Eof bytes.length 4)
  else .ok (leToNat (bytes.take 4), bytes.drop 4)

/-- `read_bytes::<N>`: pop `n` bytes. -/
def read_bytes (n : Nat) (bytes : List Nat) : Except ParseNodeError (List Nat × List Nat) :=
  if bytes.length < n then .error (.Eof bytes.length n)
  else .ok (bytes.take n, bytes.drop n)

/-- `read_hash`: pop 32 bytes and validate them with
`new_hash_try_from_bytes`. -/
def read_hash (bytes : List Nat) : Except ParseNodeError (ZkHash × List Nat) :=
  match read_bytes HASH_SIZE bytes with
  | .error e => .error e
  | .ok (bs, rest) =>
    match new_hash_try_from_bytes bs with
    | .error e => .error (.HashError e)
    | .ok h => .ok (h, rest)

/-- The `for _ in 0..preimage_len` loop of the leaf decoder. -/
def read_preimages : Nat → List Nat → Except ParseNodeError (List (List Nat) × List Nat)
  | 0, bytes => .ok ([], bytes)
  | n + 1, bytes =>
    match read_bytes 32 bytes with
    | .error e => .error e
    | .ok (b, rest) =>
      match read_preimages n rest with
      | .error e => .error e
      | .ok (bs, rest') => .ok (b :: bs, rest')

/-- `impl TryFrom<&[u8]> for Node`: the canonical node decoder. -/
def Node.tryFrom (bytes : List Nat) : Except ParseNodeError Node :=
  match read_u8 bytes with
  | .error e => .error e
  | .ok (raw_node_type, rest) =>
    match NodeType.from_u8 raw_node_type with
    | none => .error (.InvalidNodeType raw_node_type)
    | some .Empty => .ok Node.empty
    | some .Leaf =>
      match read_hash rest with
      | .error e => .error e
      | .ok (node_key, rest1) =>
        match read_u32_le rest1 with
        | .error e => .error e
        | .ok (mark, rest2) =>
          let preimage_len := mark &&& 255
          let compress_flags := mark >>> 8
          match read_preimages preimage_len rest2 with
          | .error e => .error e
          | .ok (value_preimages, rest3) =>
            match read_u8 rest3 with
            | .error e => .error e
            | .ok (key_preimage_size, rest4) =>
              if key_preimage_size > 0 then
                match read_bytes 32 rest4 with
                | .error e => .error e
                | .ok (kp, _) =>
                  .ok (Node.new_leaf node_key value_preimages compress_flags (some kp))
              else
                .ok (Node.new_leaf node_key value_preimages compress_flags none)
    | some nt =>
      match read_hash rest with
      | .error e => .error e
      | .ok (child_left, rest1) =>
        match read_hash rest1 with
        | .error e => .error e
        | .ok (child_right, _) =>
          .ok (Node.new_branch nt (.hash child_left) (.hash child_right))

/-- Errors of the trie engine (`ZkTrieError`), restricted to the variants
the embedded operations can produce. -/
inductive ZkTrieError where
  | Hash (e : PoseidonError) : ZkTrieError
  | KeyHasher (e : PoseidonError) : ZkTrieError
  | InvalidNodeBytes (e : ParseNodeError) : ZkTrieError
  | NodeNotFound : ZkTrieError
  | MaxLevelReached : ZkTrieError
deriving DecidableEq

/-- The node store, modelled as a map from node hash to decoded node. -/
abbrev NodeDb := ZkHash → Option Node

/-- The mutable state of a `ZkTrie`: root, dirty-branch arena, dirty-leaf
map and GC candidate set. -/
structure TrieState where
  root : LazyNodeHash
  dirty_branch_nodes : List Node
  dirty_leafs : List (ZkHash × Node)
  gc_nodes : List LazyNodeHash
deriving DecidableEq

/-- Lookup in the dirty-leaf map. -/
def lookupLeaf : List (ZkHash × Node) → ZkHash → Option Node
  | [], _ => none
  | (k, n) :: rest, h => if k = h then some n else lookupLeaf rest h

/-- `HashSet::insert` under the `LazyNodeHash` equality. -/
def gcInsert (h : LazyNodeHash) (s : List LazyNodeHash) : List LazyNodeHash :=
  if s.any (fun x => x.lazyEq h) then s else s ++ [h]

/-- `get_path`: bit `level % 8` of byte `HASH_SIZE - level / 8 - 1` of the
node key decides right (`true`) or left (`false`). -/
def get_path (node_key : ZkHash) (level : Nat) : Bool :=
  (node_key.getD (HASH_SIZE - level / 8 - 1) 0) &&& (1 <<< (level % 8)) != 0

/-- `ZkTrie::get_node_by_hash`: zero short-circuits to the empty node;
resolved hashes consult the dirty-leaf map then the store; lazy references
index the dirty-branch arena. -/
def get_node_by_hash (t : TrieState) (db : NodeDb) (node_hash : LazyNodeHash) :
    Except ZkTrieError Node :=
  if (node_hash.is_zero).getD false then .ok Node.empty
  else
    match node_hash with
    | .hash h =>
      match lookupLeaf t.dirty_leafs h with
      | some n => .ok n
      | none =>
        match db h with
        | some n => .ok n
        | none => .error .NodeNotFound
    | .lazyBranch index _ =>
      match t.dirty_branch_nodes.get? index with
      | some n => .ok n
      | none => .error .NodeNotFound

/-- The `for i in 0..TRIE_MAX_LEVELS` walk of `ZkTrie::get_node_by_key`,
entered at level `i`. -/
def get_node_by_key_go (t : TrieState) (db : NodeDb) (node_key : ZkHash)
    (i : Nat) (next_hash : LazyNodeHash) : Except ZkTrieError Node :=
  if _h : i < TRIE_MAX_LEVELS then
    match get_node_by_hash t db next_hash with
    | .error e => .error e
    | .ok n =>
      match n.data with
      | .empty => .ok Node.empty
      | .leaf leaf =>
        if leaf.node_key = node_key then .ok n
        else if i ≠ TRIE_MAX_LEVELS - 1 then .ok Node.empty
        else .error .NodeNotFound
      | .branch b =>
        get_node_by_key_go t db node_key (i + 1)
          (if get_path node_key i then b.child_right else b.child_left)
  else
    .error .NodeNotFound
termination_by TRIE_MAX_LEVELS - i

/-- `ZkTrie::get_node_by_key`: walk from the root at level 0. -/
def get_node_by_key (t : TrieState) (db : NodeDb) (node_key : ZkHash) :
    Except ZkTrieError Node :=
  get_node_by_key_go t db node_key 0 t.root

/-- `is_sibling_terminal` as inferred in `delete_node` from the branch type
and the side taken. -/
def siblingTerminal (path : Bool) (node_type : NodeType) : Bool :=
  node_type == .BranchLTRT || (path && node_type == .BranchLTRB)
    || (!path && node_type == .BranchLBRT)

/-- The non-pruning tail of the branch case of `delete_node`: append the
new parent branch to the dirty arena, record the superseded branch for GC,
return a lazy reference that is not terminal. -/
def delete_mk_parent (t : TrieState) (root_hash : LazyNodeHash) (new_node_type : NodeType)
    (left_child right_child : LazyNodeHash) :
    TrieState × Option (Except ZkTrieError (LazyNodeHash × Bool)) :=
  let new_parent := Node.new_branch new_node_type left_child right_child
  let lazy_hash := LazyNodeHash.lazyBranch t.dirty_branch_nodes.length new_parent.node_hash
  ({ t with gc_nodes := gcInsert root_hash t.gc_nodes,
            dirty_branch_nodes := t.dirty_branch_nodes ++ [new_parent] },
   some (.ok (lazy_hash, false)))

/-- `ZkTrie::delete_node`. The returned state carries the mutations made
before a possible error; `none` models a panic (an unresolved hash passed
to `unwrap_ref`). -/
def delete_node (t : TrieState) (db : NodeDb) (root_hash : LazyNodeHash)
    (node_key : ZkHash) (level : Nat) :
    TrieState × Option (Except ZkTrieError (LazyNodeHash × Bool)) :=
  if _h : level < TRIE_MAX_LEVELS then
    match get_node_by_hash t db root_hash with
    | .error e => (t, some (.error e))
    | .ok root =>
      match root.data with
      | .empty => (t, some (.error .NodeNotFound))
      | .leaf leaf =>
        if leaf.node_key ≠ node_key then
          (t, some (.error .NodeNotFound))
        else
          ({ t with gc_nodes := gcInsert root_hash t.gc_nodes },
           some (.ok (.hash zkZero, true)))
      | .branch b =>
        let path := get_path node_key level
        let child_hash := if path then b.child_right else b.child_left
        let sibling_hash := if path then b.child_left else b.child_right
        let is_sibling_terminal := siblingTerminal path b.node_type
        match delete_node t db child_hash node_key (level + 1) with
        | (t', none) => (t', none)
        | (t', some (.error e)) => (t', some (.error e))
        | (t', some (.ok (new_child_hash, is_new_child_terminal))) =>
          let left_child := if path then sibling_hash else new_child_hash
          let right_child := if path then new_child_hash else sibling_hash
          let is_left_terminal := if path then is_sibling_terminal else is_new_child_terminal
          let is_right_terminal := if path then is_new_child_terminal else is_sibling_terminal
          if is_left_terminal && is_right_terminal then
            match left_child.unwrap_ref, right_child.unwrap_ref with
            | some l, some r =>
              if l = zkZero then (t', some (.ok (right_child, true)))
              else if r = zkZero then (t', some (.ok (left_child, true)))
              else delete_mk_parent t' root_hash .BranchLTRT left_child right_child
            | _, _ => (t', none)
          else if is_left_terminal then
            delete_mk_parent t' root_hash .BranchLTRB left_child right_child
          else if is_right_terminal then
            delete_mk_parent t' root_hash .BranchLBRT left_child right_child
          else
            delete_mk_parent t' root_hash .BranchLBRB left_child right_child
  else
    (t, some (.error .MaxLevelReached))
termination_by TRIE_MAX_LEVELS - level

/-- `ZkTrie::delete_by_node_key`: run `delete_node` from the root; a
`NodeNotFound` error is recovered as `Ok(false)`. -/
def delete_by_node_key (t : TrieState) (db : NodeDb) (node_key : ZkHash) :
    TrieState × Option (Except ZkTrieError Bool) :=
  match delete_node t db t.root node_key 0 with
  | (t', none) => (t', none)
  | (t', some (.ok (new_root, _))) => ({ t' with root := new_root }, some (.ok true))
  | (t', some (.error .NodeNotFound)) => (t', some (.ok false))
  | (t', some (.error e)) => (t', some (.error e))

/-- `ZkTrie::delete` with the default `NoCacheHasher`: hash the key with
`hash_bytes` and delete by node key. -/
def deleteKey (perm : Nat → Nat → Nat → Nat) (t : TrieState) (db : NodeDb)
    (key : List Nat) : TrieState × Option (Except ZkTrieError Bool) :=
  match hash_bytes perm key with
  | .error e => (t, some (.error (.KeyHasher e)))
  | .ok node_key => delete_by_node_key t db node_key

/-- The leaf node built by `ZkTrie::raw_update` from the caller-supplied
value preimages (no guard on the preimage vector). -/
def raw_update_leaf (node_key : ZkHash) (value_preimages : List (List Nat))
    (compression_flags : Nat) : Node :=
  Node.new_leaf node_key value_preimages compression_flags none

/-- Run the `ZkTrieIterator` for `fuel` steps of `next()`: pop the top of
the stack, fetch it, and for a branch push the left child then the right
child (so the right child is popped first). -/
def iterRun (t : TrieState) (db : NodeDb) :
    Nat → List LazyNodeHash → List (Except ZkTrieError Node)
  | 0, _ => []
  | _, [] => []
  | fuel + 1, node_hash :: rest =>
    match get_node_by_hash t db node_hash with
    | .error e => .error e :: iterRun t db fuel rest
    | .ok n =>
      match n.data with
      | .branch b => .ok n :: iterRun t db fuel (b.child_right :: b.child_left :: rest)
      | _ => .ok n :: iterRun t db fuel rest

/-- `ZkTrie::iter`: the iterator starts with the root alone on the stack. -/
def iterStart (t : TrieState) : List LazyNodeHash := [t.root]

/-- A finite unfolding of the node graph reachable from a hash: the shape
the store presents below a (committed, acyclic) trie root. -/
inductive NTree where
  | term (n : Node) : NTree
  | br (n : Node) (left right : NTree) : NTree
deriving DecidableEq

/-- Number of nodes of an unfolding. -/
def NTree.size : NTree → Nat
  | .term _ => 1
  | .br _ l r => 1 + l.size + r.size

/-- Depth-first node list of an unfolding, right subtree first. -/
def NTree.dfsRightFirst : NTree → List Node
  | .term n => [n]
  | .br n l r => n :: (r.dfsRightFirst ++ l.dfsRightFirst)

/-- `Unfolds t db h tree`: fetching `h` and its children yields the finite
tree `tree`. -/
inductive Unfolds (t : TrieState) (db : NodeDb) : LazyNodeHash → NTree → Prop where
  | term (h : LazyNodeHash) (n : Node) :
      get_node_by_hash t db h = .ok n → n.is_branch = false → Unfolds t db h (.term n)
  | br (h : LazyNodeHash) (n : Node) (b : BranchNode) (tl tr : NTree) :
      get_node_by_hash t db h = .ok n → n.data = .branch b →
      Unfolds t db b.child_left tl → Unfolds t db b.child_right tr →
      Unfolds t db h (.br n tl tr)

/-- Errors of the shared read-only store (`SharedZkDatabaseError`). -/
inductive SharedZkDatabaseError (ε : Type) where
  | ReadOnly : SharedZkDatabaseError ε
  | Inner (e : ε) : SharedZkDatabaseError ε
deriving DecidableEq

/-- A shared read-only store wrapping a backing store, which is modelled by
its `get` behaviour (the shared wrapper holds the backing store behind
shared ownership and never exposes mutable access to it). -/
abbrev SharedDb (ε : Type) := List Nat → Except ε (Option (List Nat))

/-- `KVDatabase::get` for `SharedDb`: delegate to the backing store,
wrapping its error. -/
def SharedDb.get {ε : Type} (db : SharedDb ε) (k : List Nat) :
    Except (SharedZkDatabaseError ε) (Option (List Nat)) :=
  match db k with
  | .error e => .error (.Inner e)
  | .ok v => .ok v

/-- `KVDatabase::put_owned` for `SharedDb`: always the fixed read-only
error. -/
def SharedDb.put_owned {ε : Type} (_db : SharedDb ε) (_k _v : List Nat) :
    Except (SharedZkDatabaseError ε) (Option (List Nat)) :=
  .error .ReadOnly

/-- Modelled from the spec: the `KVDatabase` trait revision that
`SharedDb` implements is not under `src/` (the current
`src/db/kv/mod.rs` trait has `put` as a required method that
`src/db/shared.rs` does not define). Per the spec, every write to the
shared store fails with the fixed read-only error. -/
def SharedDb.put {ε : Type} (_db : SharedDb ε) (_k _v : List Nat) :
    Except (SharedZkDatabaseError ε) (Option (List Nat)) :=
  .error .ReadOnly

/-- `KVDatabase::contains_key` default implementation. -/
def SharedDb.contains_key {ε : Type} (db : SharedDb ε) (k : List Nat) :
    Except (SharedZkDatabaseError ε) Bool :=
  match SharedDb.get db k with
  | .error e => .error e
  | .ok v => .ok v.isSome

/-- `KVDatabase::or_put` default implementation: check presence first,
write only when absent. -/
def SharedDb.or_put {ε : Type} (db : SharedDb ε) (k v : List Nat) :
    Except (SharedZkDatabaseError ε) Unit :=
  match SharedDb.contains_key db k with
  | .error e => .error e
  | .ok true => .ok ()
  | .ok false =>
    match SharedDb.put db k v with
    | .error e => .error e
    | .ok _ => .ok ()

/-- `KVDatabase::or_put_with` default implementation: check presence
first, write the closure's value only when absent. -/
def SharedDb.or_put_with {ε : Type} (db : SharedDb ε) (k : List Nat)
    (default : Unit → List Nat) : Except (SharedZkDatabaseError ε) Unit :=
  match SharedDb.contains_key db k with
  | .error e => .error e
  | .ok true => .ok ()
  | .ok false =>
    match SharedDb.put_owned db k (default ()) with
    | .error e => .error e
    | .ok _ => .ok ()

/-- `KVDatabase::extend` default implementation: `put_owned` every pair. -/
def SharedDb.extend {ε : Type} (db : SharedDb ε) :
    List (List Nat × List Nat) → Except (SharedZkDatabaseError ε) Unit
  | [] => .ok ()
  | (k, v) :: rest =>
    match SharedDb.put_owned db k v with
    | .error e => .error e
    | .ok _ => SharedDb.extend db rest

/-- The path bit as the specification words it: bit `level % 8` of byte
`HASH_SIZE - level / 8 - 1` of the key is set. -/
def pathBitSpec (node_key : ZkHash) (level : Nat) : Bool :=
  Nat.testBit (node_key.getD (HASH_SIZE - level / 8 - 1) 0) (level % 8)

/-- Specification restatement of the leaf rule of `hash_bytes_array`:
`leaf_i = hash_bytes(preimages[i])` when `i ≤ 24` and bit `i` of the
compression flags is set, otherwise the preimage is validated as a field
element and used directly. -/
def hbaLeavesSpec (perm : Nat → Nat → Nat → Nat) (flag : Nat) :
    List (List Nat) → Nat → Except PoseidonError (List ZkHash)
  | [], _ => .ok []
  | b :: rest, i =>
    match (if i ≤ 24 ∧ Nat.testBit flag i then hash_bytes perm b
           else new_hash_try_from_bytes b) with
    | .error e => .error e
    | .ok h =>
      match hbaLeavesSpec perm flag rest (i + 1) with
      | .error e => .error e
      | .ok hs => .ok (h :: hs)

/-- Specification restatement of one pairwise-reduction round: hash
consecutive pairs with `hash(domain, [left, right])`; an unpaired last
element passes through unchanged. -/
def roundSpec (perm : Nat → Nat → Nat → Nat) (domain : Nat) :
    List ZkHash → Except PoseidonError (List ZkHash)
  | a :: b :: rest =>
    match hashH perm domain a b with
    | .error e => .error e
    | .ok h =>
      match roundSpec perm domain rest with
      | .error e => .error e
      | .ok tl => .ok (h :: tl)
  | l => .ok l

/-- Specification restatement of the repeated reduction: run rounds until
a single element remains (the fuel argument only bounds the number of
rounds; the initial list length always suffices). -/
def reduceSpec (perm : Nat → Nat → Nat → Nat) (domain : Nat) :
    Nat → List ZkHash → Except PoseidonError ZkHash
  | _, [x] => .ok x
  | _, [] => .error .InvalidFieldElement
  | fuel + 1, l =>
    match roundSpec perm domain l with
    | .error e => .error e
    | .ok l' => reduceSpec perm domain fuel l'
  | 0, _ => .error .InvalidFieldElement

/-- Specification restatement of `hash_bytes_array`: build the leaves by
the flag rule, then pairwise-reduce with domain
`|preimages| * HASH_DOMAIN_ELEMS_BASE`. -/
def hash_bytes_array_spec (perm : Nat → Nat → Nat → Nat)
    (value_bytes : List (List Nat)) (flag : Nat) :
    Option (Except PoseidonError ZkHash) :=
  if value_bytes.isEmpty then none
  else
    some (match hbaLeavesSpec perm flag value_bytes 0 with
      | .error e => .error e
      | .ok leaves =>
        reduceSpec perm (value_bytes.length * HASH_DOMAIN_ELEMS_BASE)
          value_bytes.length leaves)

/-- Well-formedness used by deletion: every fetchable branch node has a
resolved child hash on each side its `node_type` marks as terminal (data
model invariant: `node_type` truthfully reports the children's natures,
and terminal nodes are addressed by value). -/
def TerminalChildrenResolved (t : TrieState) (db : NodeDb) : Prop :=
  ∀ h n b, get_node_by_hash t db h = .ok n → n.data = .branch b →
    (siblingTerminal true b.node_type = true → (b.child_left.unwrap_ref).isSome = true) ∧
    (siblingTerminal false b.node_type = true → (b.child_right.unwrap_ref).isSome = true)

/-- A leaf whose encoding has 256 value preimages: counterexample data for
the codec round-trip. -/
def cexLeaf256 : Node :=
  Node.new_leaf zkZero (List.replicate 256 (List.replicate 32 0)) 0 (some (List.replicate 32 0))

/-- A leaf with `compress_flags = 2^24`: counterexample data for the codec
round-trip. -/
def cexLeafFlags : Node :=
  Node.new_leaf zkZero [List.replicate 32 0] (2 ^ 24) none

/-- A sample left leaf for the iterator counterexample. -/
def iterLeafL : Node := Node.new_leaf (List.replicate 31 0 ++ [2]) [[1]] 0 none

/-- A sample right leaf for the iterator counterexample. -/
def iterLeafR : Node := Node.new_leaf (List.replicate 31 0 ++ [1]) [[2]] 0 none

/-- The hash addressing the left leaf in the iterator counterexample. -/
def iterHashL : ZkHash := List.replicate 31 0 ++ [10]

/-- The hash addressing the right leaf in the iterator counterexample. -/
def iterHashR : ZkHash := List.replicate 31 0 ++ [11]

/-- The root hash of the iterator counterexample. -/
def iterHashRoot : ZkHash := List.replicate 31 0 ++ [12]

/-- The root branch of the iterator counterexample. -/
def iterRoot : Node := Node.new_branch .BranchLTRT (.hash iterHashL) (.hash iterHashR)

/-- The store of the iterator counterexample. -/
def iterDb : NodeDb := fun h =>
  if h = iterHashRoot then some iterRoot
  else if h = iterHashL then some iterLeafL
  else if h = iterHashR then some iterLeafR
  else none

/-- A clean trie state rooted at a given hash. -/
def cleanTrie (root : ZkHash) : TrieState :=
  { root := .hash root, dirty_branch_nodes := [], dirty_leafs := [], gc_nodes := [] }

/-- A backing store holding one key, for the shared-store counterexample. -/
def sharedCexDb : SharedDb Unit :=
  fun k => .ok (if k = [0] then some [1] else none)

/-- A sample store hash addressing a single leaf. -/
def wHash1 : ZkHash := List.replicate 31 0 ++ [7]

/-- A sample node key present in the sample store. -/
def wKeyA : ZkHash := List.replicate 32 0

/-- A sample node key absent from the sample store. -/
def wKeyB : ZkHash := List.replicate 31 0 ++ [3]

/-- The sample leaf of the one-leaf store. -/
def wLeaf : Node := Node.new_leaf wKeyA [[5]] 0 none

/-- The one-leaf sample store. -/
def wDb : NodeDb := fun h => if h = wHash1 then some wLeaf else none

/-- The sample trie over the one-leaf store. -/
def wTrie : TrieState := cleanTrie wHash1

/-- A sample leaf for the codec round-trip witness. -/
def wLeafC2 : Node :=
  Node.new_leaf zkZero [List.replicate 32 0] 1 (some (List.replicate 32 0))

/-- A sample branch for the codec round-trip witness. -/
def wBranchC2 : Node :=
  Node.new_branch .BranchLTRB (.hash zkZero) (.hash (List.replicate 31 0 ++ [1]))

/-- Node key routed right at level 0 (bit 0 of the last byte set). -/
def c4Key2 : ZkHash := List.replicate 31 0 ++ [1]

/-- Node key routed left at level 0 (bit 0 of the last byte clear). -/
def c4Key1 : ZkHash := List.replicate 31 0 ++ [2]

/-- Left leaf of the deletion fixture. -/
def c4Leaf1 : Node := Node.new_leaf c4Key1 [[1]] 0 none

/-- Right leaf of the deletion fixture. -/
def c4Leaf2 : Node := Node.new_leaf c4Key2 [[2]] 0 none

/-- Hash of the left leaf of the deletion fixture. -/
def c4H1 : ZkHash := List.replicate 31 0 ++ [21]

/-- Hash of the right leaf of the deletion fixture. -/
def c4H2 : ZkHash := List.replicate 31 0 ++ [22]

/-- Root hash of the deletion fixture. -/
def c4HRoot : ZkHash := List.replicate 31 0 ++ [23]

/-- Root branch of the deletion fixture. -/
def c4Root : Node := Node.new_branch .BranchLTRT (.hash c4H1) (.hash c4H2)

/-- Store of the deletion fixture. -/
def c4Db : NodeDb := fun h =>
  if h = c4HRoot then some c4Root
  else if h = c4H1 then some c4Leaf1
  else if h = c4H2 then some c4Leaf2
  else none

/-- Trie of the deletion fixture. -/
def c4Trie : TrieState := cleanTrie c4HRoot

theorem leToNat_append (l1 l2 : List Nat) :
    leToNat (l1 ++ l2) = leToNat l1 + 256 ^ l1.length * leToNat l2 := by
  induction l1 with
  | nil => simp [leToNat]
  | cons b bs ih => simp [leToNat, ih]; ring

theorem leToNat_replicate_zero (n : Nat) : leToNat (List.replicate n 0) = 0 := by
  induction n with
  | zero => rfl
  | succ k ih => simp [List.replicate_succ, leToNat, ih]

theorem leToNat_lt_of_bytes (l : List Nat) (h : ∀ x ∈ l, x < 256) :
    leToNat l < 256 ^ l.length := by
  induction l with
  | nil => simp [leToNat]
  | cons b bs ih =>
    have hb : b < 256 := h b (by simp)
    have hbs : leToNat bs < 256 ^ bs.length := ih (fun x hx => h x (by simp [hx]))
    calc b + 256 * leToNat bs < 256 + 256 * leToNat bs := by omega
    _ = 256 * (leToNat bs + 1) := by ring
    _ ≤ 256 * 256 ^ bs.length := by
        exact Nat.mul_le_mul_left 256 (by omega)
    _ = 256 ^ (b :: bs).length := by
        simp [List.length_cons, pow_succ]; ring

theorem natToLe_length (w n : Nat) : (natToLe w n).length = w := by
  induction w generalizing n with
  | zero => rfl
  | succ k ih => simp [natToLe, ih]

theorem leToNat_natToLe (w n : Nat) : leToNat (natToLe w n) = n % 256 ^ w := by
  induction w generalizing n with
  | zero => simp [natToLe, leToNat, Nat.mod_one]
  | succ k ih =>
    simp only [natToLe, leToNat, ih]
    have : (256 : Nat) ^ (k + 1) = 256 * 256 ^ k := by ring
    rw [this, Nat.mod_mul]

theorem mask_testBit (x k : Nat) : ((x &&& (1 <<< k)) != 0) = x.testBit k := by
  have h1 : (1 : Nat) <<< k = 2 ^ k := by simp [Nat.shiftLeft_eq]
  rw [h1, Nat.and_two_pow]
  cases h : x.testBit k <;> simp

theorem get_path_eq_pathBitSpec (node_key : ZkHash) (level : Nat) :
    get_path node_key level = pathBitSpec node_key level := by
  unfold get_path pathBitSpec
  exact mask_testBit _ _

/-- C9: for every trie state and every store, `get_node_by_hash` on a
reference that resolves to the all-zero hash returns the empty node
immediately; the result does not depend on the dirty maps or the store, so
a zero child never causes a store lookup or a `NodeNotFound` error. -/
theorem c9_zero_hash_short_circuit (t : TrieState) (db : NodeDb) (h : LazyNodeHash)
    (hz : h.try_as_hash = some zkZero) :
    get_node_by_hash t db h = .ok Node.empty
    ∧ ∀ (t' : TrieState) (db' : NodeDb), get_node_by_hash t' db' h = .ok Node.empty := by
  have main : ∀ (t' : TrieState) (db' : NodeDb), get_node_by_hash t' db' h = .ok Node.empty := by
    intro t' db'
    unfold get_node_by_hash LazyNodeHash.is_zero
    rw [hz]
    simp
  exact ⟨main t db, main⟩

theorem c9_witness :
    (LazyNodeHash.hash zkZero).try_as_hash = some zkZero
    ∧ get_node_by_hash wTrie wDb (.hash zkZero) = .ok Node.empty :=
  ⟨rfl, (c9_zero_hash_short_circuit wTrie wDb (.hash zkZero) rfl).1⟩

/-- C8 (counterexample): on a backing store that already contains the key,
the default `or_put` of the shared read-only store returns `Ok` instead of
failing with the read-only error. -/
theorem c8_counterexample :
    SharedDb.or_put sharedCexDb [0] [9] = .ok ()
    ∧ SharedDb.or_put sharedCexDb [0] [9] ≠ .error .ReadOnly := by
  constructor
  · rfl
  · simp [show SharedDb.or_put sharedCexDb [0] [9] = .ok () from rfl]

/-- C8 (amended): `put` and `put_owned` on the shared read-only store
always fail with the fixed read-only error; the defaulted `or_put` and
`or_put_with` consult the backing `get` first and therefore fail with the
read-only error exactly when the key is absent, succeed without writing
when it is present, and propagate a wrapped backing read error otherwise;
`extend` fails with the read-only error on the first pair and succeeds on
an empty iterator; `get` delegates to the backing store unchanged (errors
wrapped in `Inner`). The wrapped store itself is behind shared ownership
and is never modified. -/
theorem c8_shared_store_writes {ε : Type} (db : SharedDb ε) (k v : List Nat)
    (default : Unit → List Nat) :
    SharedDb.put db k v = .error .ReadOnly
    ∧ SharedDb.put_owned db k v = .error .ReadOnly
    ∧ (∀ e, db k = .error e →
        SharedDb.or_put db k v = .error (.Inner e)
        ∧ SharedDb.or_put_with db k default = .error (.Inner e)
        ∧ SharedDb.get db k = .error (.Inner e))
    ∧ (∀ val, db k = .ok (some val) →
        SharedDb.or_put db k v = .ok ()
        ∧ SharedDb.or_put_with db k default = .ok ()
        ∧ SharedDb.get db k = .ok (some val))
    ∧ (db k = .ok none →
        SharedDb.or_put db k v = .error .ReadOnly
        ∧ SharedDb.or_put_with db k default = .error .ReadOnly
        ∧ SharedDb.get db k = .ok none)
    ∧ SharedDb.extend db [] = .ok ()
    ∧ (∀ p rest, SharedDb.extend db (p :: rest) = .error .ReadOnly) := by
  refine ⟨rfl, rfl, ?_, ?_, ?_, rfl, ?_⟩
  · intro e he
    unfold SharedDb.or_put SharedDb.or_put_with SharedDb.contains_key SharedDb.get
    rw [he]
    exact ⟨rfl, rfl, rfl⟩
  · intro val hval
    unfold SharedDb.or_put SharedDb.or_put_with SharedDb.contains_key SharedDb.get
    rw [hval]
    exact ⟨rfl, rfl, rfl⟩
  · intro hnone
    unfold SharedDb.or_put SharedDb.or_put_with SharedDb.contains_key SharedDb.get
    rw [hnone]
    exact ⟨rfl, rfl, rfl⟩
  · intro p rest
    cases p
    rfl

theorem c8_witness :
    sharedCexDb [1] = .ok none
    ∧ SharedDb.or_put sharedCexDb [1] [9] = .error .ReadOnly
    ∧ SharedDb.put sharedCexDb [1] [9] = .error .ReadOnly :=
  ⟨rfl,
   ((c8_shared_store_writes sharedCexDb [1] [9] (fun _ => [2])).2.2.2.2.1 rfl).1,
   (c8_shared_store_writes sharedCexDb [1] [9] (fun _ => [2])).1⟩

/-- C1: the lookup walk `get_node_by_key` starts at the root at level 0
and, at each level `i < TRIE_MAX_LEVELS = 248`: on an empty node it
returns the empty node; on a leaf it returns the leaf when its key equals
the target, fails with `NodeNotFound` when the keys differ at level
`TRIE_MAX_LEVELS - 1 = 247`, and returns the empty node when the keys
differ at a lower level; on a branch it descends into the right child iff
path bit `i` of the target key (bit `i % 8` of byte `HASH_SIZE - i/8 - 1`)
is set. -/
theorem c1_lookup_walk (t : TrieState) (db : NodeDb) (node_key : ZkHash) (i : Nat)
    (next : LazyNodeHash) (n : Node) (hi : i < TRIE_MAX_LEVELS)
    (hfetch : get_node_by_hash t db next = .ok n) :
    TRIE_MAX_LEVELS = 248
    ∧ get_node_by_key t db node_key = get_node_by_key_go t db node_key 0 t.root
    ∧ (n.data = .empty → get_node_by_key_go t db node_key i next = .ok Node.empty)
    ∧ (∀ leaf, n.data = .leaf leaf →
        (leaf.node_key = node_key → get_node_by_key_go t db node_key i next = .ok n)
        ∧ (leaf.node_key ≠ node_key → i = TRIE_MAX_LEVELS - 1 →
            get_node_by_key_go t db node_key i next = .error .NodeNotFound)
        ∧ (leaf.node_key ≠ node_key → i ≠ TRIE_MAX_LEVELS - 1 →
            get_node_by_key_go t db node_key i next = .ok Node.empty))
    ∧ (∀ b, n.data = .branch b →
        get_node_by_key_go t db node_key i next =
          get_node_by_key_go t db node_key (i + 1)
            (if pathBitSpec node_key i then b.child_right else b.child_left)) := by
  refine ⟨rfl, rfl, ?_, ?_, ?_⟩
  · intro hd
    rw [get_node_by_key_go]
    rw [dif_pos hi, hfetch]
    simp only [hd]
  · intro leaf hd
    refine ⟨?_, ?_, ?_⟩
    · intro hk
      rw [get_node_by_key_go]
      rw [dif_pos hi, hfetch]
      simp only [hd, if_pos hk]
    · intro hk hlast
      rw [get_node_by_key_go]
      rw [dif_pos hi, hfetch]
      simp only [hd, if_neg hk]
      simp [hlast]
    · intro hk hlast
      rw [get_node_by_key_go]
      rw [dif_pos hi, hfetch]
      simp only [hd, if_neg hk]
      simp [hlast]
  · intro b hd
    rw [get_node_by_key_go]
    rw [dif_pos hi, hfetch]
    simp only [hd, get_path_eq_pathBitSpec]

theorem c1_witness :
    get_node_by_key_go wTrie wDb wKeyA 0 (.hash wHash1) = .ok wLeaf :=
  (((c1_lookup_walk wTrie wDb wKeyA 0 (.hash wHash1) wLeaf (by decide) rfl).2.2.2.1
    { node_key := wKeyA, node_key_preimage := none, value_preimages := [[5]],
      compress_flags := 0, value_hash := none } rfl).1) rfl

/-- C4: in the branch case of `delete_node`, after deleting in the child
selected by the path bit: if the new child and the sibling (as inferred
from the branch type) are both terminal and one of them is the all-zero
hash, the non-empty child is returned with `is_terminal = true` and no new
branch is created; otherwise the new `node_type` is computed from the two
children's terminal natures, a new branch is appended to the dirty-branch
arena, the superseded branch is recorded as a GC candidate, and an
unresolved lazy reference is returned with `is_terminal = false`. -/
theorem c4_delete_branch (t t' : TrieState) (db : NodeDb) (root_hash : LazyNodeHash)
    (node_key : ZkHash) (level : Nat) (n : Node) (b : BranchNode)
    (new_child : LazyNodeHash) (is_term : Bool) (path : Bool)
    (hl : level < TRIE_MAX_LEVELS)
    (hfetch : get_node_by_hash t db root_hash = .ok n)
    (hdata : n.data = .branch b)
    (hpath : get_path node_key level = path)
    (hrec : delete_node t db (if path then b.child_right else b.child_left)
              node_key (level + 1) = (t', some (.ok (new_child, is_term)))) :
    ∀ sibling isSib leftC rightC isLT isRT,
      sibling = (if path then b.child_left else b.child_right) →
      isSib = siblingTerminal path b.node_type →
      leftC = (if path then sibling else new_child) →
      rightC = (if path then new_child else sibling) →
      isLT = (if path then isSib else is_term) →
      isRT = (if path then is_term else isSib) →
      (((isLT && isRT) = true →
        ∀ l r, leftC.unwrap_ref = some l → rightC.unwrap_ref = some r →
          (l = zkZero →
            delete_node t db root_hash node_key level = (t', some (.ok (rightC, true))))
          ∧ (l ≠ zkZero → r = zkZero →
            delete_node t db root_hash node_key level = (t', some (.ok (leftC, true))))
          ∧ (l ≠ zkZero → r ≠ zkZero →
            delete_node t db root_hash node_key level =
              ({ t' with gc_nodes := gcInsert root_hash t'.gc_nodes,
                         dirty_branch_nodes := t'.dirty_branch_nodes
                           ++ [Node.new_branch .BranchLTRT leftC rightC] },
               some (.ok (.lazyBranch t'.dirty_branch_nodes.length none, false)))))
      ∧ ((isLT && isRT) = false →
        delete_node t db root_hash node_key level =
          ({ t' with gc_nodes := gcInsert root_hash t'.gc_nodes,
                     dirty_branch_nodes := t'.dirty_branch_nodes
                       ++ [Node.new_branch
                            (if isLT then .BranchLTRB
                             else if isRT then .BranchLBRT
                             else .BranchLBRB) leftC rightC] },
           some (.ok (.lazyBranch t'.dirty_branch_nodes.length none, false))))) := by
  subst hpath
  intro sibling isSib leftC rightC isLT isRT hs hi hlc hrc hlt hrt
  subst hs hi hlc hrc hlt hrt
  have hunfold :
      delete_node t db root_hash node_key level =
        (match delete_node t db
            (if get_path node_key level then b.child_right else b.child_left)
            node_key (level + 1) with
        | (t', none) => (t', none)
        | (t', some (.error e)) => (t', some (.error e))
        | (t', some (.ok (new_child_hash, is_new_child_terminal))) =>
          let sibling_hash :=
            if get_path node_key level then b.child_left else b.child_right
          let is_sibling_terminal := siblingTerminal (get_path node_key level) b.node_type
          let left_child := if get_path node_key level then sibling_hash else new_child_hash
          let right_child := if get_path node_key level then new_child_hash else sibling_hash
          let is_left_terminal :=
            if get_path node_key level then is_sibling_terminal else is_new_child_terminal
          let is_right_terminal :=
            if get_path node_key level then is_new_child_terminal else is_sibling_terminal
          if is_left_terminal && is_right_terminal then
            match left_child.unwrap_ref, right_child.unwrap_ref with
            | some l, some r =>
              if l = zkZero then (t', some (.ok (right_child, true)))
              else if r = zkZero then (t', some (.ok (left_child, true)))
              else delete_mk_parent t' root_hash .BranchLTRT left_child right_child
            | _, _ => (t', none)
          else if is_left_terminal then
            delete_mk_parent t' root_hash .BranchLTRB left_child right_child
          else if is_right_terminal then
            delete_mk_parent t' root_hash .BranchLBRT left_child right_child
          else
            delete_mk_parent t' root_hash .BranchLBRB left_child right_child) := by
    rw [delete_node]
    rw [dif_pos hl, hfetch]
    simp only [hdata]
  rw [hunfold, hrec]
  simp only []
  constructor
  · intro hboth l r hlref hrref
    rw [hboth]
    simp only [if_true, Bool.true_eq]
    rw [hlref, hrref]
    refine ⟨?_, ?_, ?_⟩
    · intro hz
      subst hz
      simp
    · intro hnz hz
      subst hz
      simp [hnz]
    · intro hnz hnz2
      simp [hnz, hnz2, delete_mk_parent, Node.new_branch]
  · intro hboth
    rw [hboth]
    simp only [Bool.false_eq_true, if_false]
    by_cases h1 : (if get_path node_key level then siblingTerminal (get_path node_key level) b.node_type else is_term) = true
    · rw [h1]
      simp only [if_true]
      simp [delete_mk_parent, Node.new_branch]
    · have h1' : (if get_path node_key level then siblingTerminal (get_path node_key level) b.node_type else is_term) = false := by
        revert h1
        cases (if get_path node_key level then siblingTerminal (get_path node_key level) b.node_type else is_term) <;> simp
      rw [h1']
      simp only [Bool.false_eq_true, if_false]
      by_cases h2 : (if get_path node_key level then is_term else siblingTerminal (get_path node_key level) b.node_type) = true
      · rw [h2]
        simp only [if_true]
        simp [delete_mk_parent, Node.new_branch]
      · have h2' : (if get_path node_key level then is_term else siblingTerminal (get_path node_key level) b.node_type) = false := by
          revert h2
          cases (if get_path node_key level then is_term else siblingTerminal (get_path node_key level) b.node_type) <;> simp
        rw [h2']
        simp only [Bool.false_eq_true, if_false]
        simp [delete_mk_parent, Node.new_branch]

theorem c4_witness :
    delete_node c4Trie c4Db (.hash c4HRoot) c4Key2 0 =
      ({ c4Trie with gc_nodes := gcInsert (.hash c4H2) c4Trie.gc_nodes },
       some (.ok (.hash c4H1, true))) := by
  have hrec : delete_node c4Trie c4Db
      (if true then (LazyNodeHash.hash c4H2) else (LazyNodeHash.hash c4H1)) c4Key2 1 =
      ({ c4Trie with gc_nodes := gcInsert (.hash c4H2) c4Trie.gc_nodes },
       some (.ok (.hash zkZero, true))) := by
    rw [delete_node]
    rfl
  have h := c4_delete_branch c4Trie
      ({ c4Trie with gc_nodes := gcInsert (.hash c4H2) c4Trie.gc_nodes })
      c4Db (.hash c4HRoot) c4Key2 0 c4Root
      { node_type := .BranchLTRT, child_left := .hash c4H1, child_right := .hash c4H2 }
      (.hash zkZero) true true (by decide) rfl rfl (by decide) hrec
      (.hash c4H1) true (.hash c4H1) (.hash zkZero) true true
      rfl rfl rfl rfl rfl rfl
  exact ((h.1 rfl c4H1 zkZero rfl rfl).2.1 (by decide) rfl)

theorem absent_delete (t : TrieState) (db : NodeDb) (k : ZkHash) :
    ∀ fuel level next, TRIE_MAX_LEVELS - level = fuel →
      get_node_by_key_go t db k level next = .ok Node.empty →
      delete_node t db next k level = (t, some (.error .NodeNotFound)) := by
  intro fuel
  induction fuel with
  | zero =>
    intro level next hf hget
    exfalso
    have hge : ¬ level < TRIE_MAX_LEVELS := by omega
    rw [get_node_by_key_go, dif_neg hge] at hget
    exact Except.noConfusion hget
  | succ f ih =>
    intro level next hf hget
    have hlt : level < TRIE_MAX_LEVELS := by omega
    rw [get_node_by_key_go, dif_pos hlt] at hget
    rw [delete_node, dif_pos hlt]
    cases hfetch : get_node_by_hash t db next with
    | error e =>
      rw [hfetch] at hget
      simp at hget
    | ok n =>
      rw [hfetch] at hget
      cases hn : n.data with
      | empty =>
        simp only [hn]
      | leaf leaf =>
        simp only [hn] at hget ⊢
        by_cases hk : leaf.node_key = k
        · exfalso
          rw [if_pos hk] at hget
          injection hget with hne
          rw [hne] at hn
          simp [Node.empty] at hn
        · rw [if_pos hk]
      | branch b =>
        simp only [hn] at hget ⊢
        have hrec := ih (level + 1)
          (if get_path k level then b.child_right else b.child_left) (by omega) hget
        rw [hrec]

theorem present_delete (t : TrieState) (db : NodeDb) (k : ZkHash)
    (hwf : TerminalChildrenResolved t db) :
    ∀ fuel level next n leaf, TRIE_MAX_LEVELS - level = fuel →
      get_node_by_key_go t db k level next = .ok n →
      n.data = .leaf leaf → leaf.node_key = k →
      ∃ t' nc b, delete_node t db next k level = (t', some (.ok (nc, b)))
        ∧ (b = true → nc.try_as_hash.isSome = true) := by
  intro fuel
  induction fuel with
  | zero =>
    intro level next n leaf hf hget hn hk
    exfalso
    have hge : ¬ level < TRIE_MAX_LEVELS := by omega
    rw [get_node_by_key_go, dif_neg hge] at hget
    exact Except.noConfusion hget
  | succ f ih =>
    intro level next n leaf hf hget hn hk
    have hlt : level < TRIE_MAX_LEVELS := by omega
    rw [get_node_by_key_go, dif_pos hlt] at hget
    rw [delete_node, dif_pos hlt]
    cases hfetch : get_node_by_hash t db next with
    | error e =>
      rw [hfetch] at hget
      simp at hget
    | ok m =>
      rw [hfetch] at hget
      cases hm : m.data with
      | empty =>
        exfalso
        simp only [hm] at hget
        injection hget with hne
        rw [← hne] at hn
        simp [Node.empty] at hn
      | leaf leaf2 =>
        simp only [hm] at hget ⊢
        by_cases hk2 : leaf2.node_key = k
        · rw [if_neg (not_not_intro hk2)]
          exact ⟨_, .hash zkZero, true, rfl, fun _ => rfl⟩
        · exfalso
          rw [if_neg hk2] at hget
          by_cases h247 : level ≠ TRIE_MAX_LEVELS - 1
          · rw [if_pos h247] at hget
            injection hget with hne
            rw [← hne] at hn
            simp [Node.empty] at hn
          · rw [if_neg h247] at hget
            exact Except.noConfusion hget
      | branch b2 =>
        simp only [hm] at hget ⊢
        obtain ⟨t'', nc, bb, hrec, hres⟩ :=
          ih (level + 1) (if get_path k level then b2.child_right else b2.child_left)
            n leaf (by omega) hget hn hk
        rw [hrec]
        have hsides := hwf next m b2 hfetch hm
        cases hpath : get_path k level with
        | true =>
          simp only [hpath, if_true]
          cases hsib : siblingTerminal true b2.node_type with
          | true =>
            cases bb with
            | true =>
              simp only [hsib, Bool.true_and]
              obtain ⟨l, hl⟩ := Option.isSome_iff_exists.mp (hsides.1 hsib)
              obtain ⟨r, hr⟩ := Option.isSome_iff_exists.mp (hres rfl)
              rw [show nc.unwrap_ref = some r from hr, hl]
              by_cases hz : l = zkZero
              · refine ⟨t'', nc, true, ?_, fun _ => ?_⟩
                · simp [hz]
                · rw [show nc.try_as_hash = some r from hr]
                  rfl
              · by_cases hz2 : r = zkZero
                · refine ⟨t'', b2.child_left, true, ?_, fun _ => ?_⟩
                  · simp [hz, hz2]
                  · rw [show LazyNodeHash.try_as_hash b2.child_left = some l from hl]
                    rfl
                · simp only [hz, hz2, eq_self_iff_true, if_true, if_false]
                  exact ⟨_, _, false, rfl, fun h => Bool.noConfusion h⟩
            | false =>
              simp only [hsib, eq_self_iff_true, Bool.and_false, Bool.false_and, Bool.true_and, Bool.and_true, Bool.false_eq_true, Bool.true_eq_false, if_true, if_false]
              exact ⟨_, _, false, rfl, fun h => Bool.noConfusion h⟩
          | false =>
            cases bb with
            | true =>
              simp only [hsib, eq_self_iff_true, Bool.and_false, Bool.false_and, Bool.true_and, Bool.and_true, Bool.false_eq_true, Bool.true_eq_false, if_true, if_false]
              exact ⟨_, _, false, rfl, fun h => Bool.noConfusion h⟩
            | false =>
              simp only [hsib, eq_self_iff_true, Bool.and_false, Bool.false_and, Bool.true_and, Bool.and_true, Bool.false_eq_true, Bool.true_eq_false, if_true, if_false]
              exact ⟨_, _, false, rfl, fun h => Bool.noConfusion h⟩
        | false =>
          simp only [hpath, Bool.false_eq_true, if_false]
          cases hsib : siblingTerminal false b2.node_type with
          | true =>
            cases bb with
            | true =>
              simp only [hsib, Bool.and_true]
              obtain ⟨r, hr⟩ := Option.isSome_iff_exists.mp (hsides.2 hsib)
              obtain ⟨l, hl⟩ := Option.isSome_iff_exists.mp (hres rfl)
              rw [show nc.unwrap_ref = some l from hl, hr]
              by_cases hz : l = zkZero
              · refine ⟨t'', b2.child_right, true, ?_, fun _ => ?_⟩
                · simp [hz]
                · rw [show LazyNodeHash.try_as_hash b2.child_right = some r from hr]
                  rfl
              · by_cases hz2 : r = zkZero
                · refine ⟨t'', nc, true, ?_, fun _ => ?_⟩
                  · simp [hz, hz2]
                  · rw [show nc.try_as_hash = some l from hl]
                    rfl
                · simp only [hz, hz2, eq_self_iff_true, if_true, if_false]
                  exact ⟨_, _, false, rfl, fun h => Bool.noConfusion h⟩
            | false =>
              simp only [hsib, eq_self_iff_true, Bool.and_false, Bool.false_and, Bool.true_and, Bool.and_true, Bool.false_eq_true, Bool.true_eq_false, if_true, if_false]
              exact ⟨_, _, false, rfl, fun h => Bool.noConfusion h⟩
          | false =>
            cases bb with
            | true =>
              simp only [hsib, eq_self_iff_true, Bool.and_false, Bool.false_and, Bool.true_and, Bool.and_true, Bool.false_eq_true, Bool.true_eq_false, if_true, if_false]
              exact ⟨_, _, false, rfl, fun h => Bool.noConfusion h⟩
            | false =>
              simp only [hsib, eq_self_iff_true, Bool.and_false, Bool.false_and, Bool.true_and, Bool.and_true, Bool.false_eq_true, Bool.true_eq_false, if_true, if_false]
              exact ⟨_, _, false, rfl, fun h => Bool.noConfusion h⟩

/-- C6: the public deletion recovers the internal `NodeNotFound` as
`Ok(false)`: when the lookup walk classifies the node key as absent (it
returns the empty node), `delete_by_node_key` returns `Ok(false)` and
leaves the whole trie state (root, dirty-branch arena, dirty-leaf map, GC
candidates) unchanged — the store, passed by shared reference, cannot be
modified at all; when the walk finds a leaf with the target key (and the
state satisfies the terminal-children-resolved invariant), it returns
`Ok(true)`. -/
theorem c6_delete_recovers_not_found (t : TrieState) (db : NodeDb) (k : ZkHash) :
    (get_node_by_key t db k = .ok Node.empty →
      delete_by_node_key t db k = (t, some (.ok false)))
    ∧ (TerminalChildrenResolved t db →
        ∀ n leaf, get_node_by_key t db k = .ok n → n.data = .leaf leaf →
          leaf.node_key = k →
          ∃ t', delete_by_node_key t db k = (t', some (.ok true))) := by
  constructor
  · intro habs
    rw [get_node_by_key] at habs
    have h := absent_delete t db k (TRIE_MAX_LEVELS - 0) 0 t.root rfl habs
    unfold delete_by_node_key
    rw [h]
  · intro hwf n leaf hget hn hk
    rw [get_node_by_key] at hget
    obtain ⟨t', nc, b, hrec, _⟩ :=
      present_delete t db k hwf (TRIE_MAX_LEVELS - 0) 0 t.root n leaf rfl hget hn hk
    unfold delete_by_node_key
    rw [hrec]
    exact ⟨_, rfl⟩

theorem wDb_fetch_cases (h : LazyNodeHash) (n : Node)
    (hf : get_node_by_hash wTrie wDb h = .ok n) : n = Node.empty ∨ n = wLeaf := by
  unfold get_node_by_hash at hf
  by_cases hz : (h.is_zero).getD false
  · rw [if_pos hz] at hf
    injection hf with h1
    exact Or.inl h1.symm
  · rw [if_neg hz] at hf
    cases h with
    | hash x =>
      simp only [wTrie, cleanTrie, lookupLeaf] at hf
      by_cases hx : x = wHash1
      · simp only [wDb, hx, if_pos] at hf
        injection hf with h1
        exact Or.inr h1.symm
      · simp only [wDb, if_neg hx] at hf
        exact Except.noConfusion hf
    | lazyBranch i r =>
      simp only [wTrie, cleanTrie, List.get?] at hf
      exact Except.noConfusion hf

theorem wTrie_terminal_resolved : TerminalChildrenResolved wTrie wDb := by
  intro h n b hf hd
  rcases wDb_fetch_cases h n hf with h1 | h1 <;> subst h1 <;>
    simp [Node.empty, wLeaf, Node.new_leaf] at hd

theorem c6_witness :
    delete_by_node_key wTrie wDb wKeyB = (wTrie, some (.ok false))
    ∧ ∃ t', delete_by_node_key wTrie wDb wKeyA = (t', some (.ok true)) := by
  constructor
  · exact (c6_delete_recovers_not_found wTrie wDb wKeyB).1
      (by rw [get_node_by_key, get_node_by_key_go]; rfl)
  · exact (c6_delete_recovers_not_found wTrie wDb wKeyA).2 wTrie_terminal_resolved wLeaf
      { node_key := wKeyA, node_key_preimage := none, value_preimages := [[5]],
        compress_flags := 0, value_hash := none }
      (by rw [get_node_by_key, get_node_by_key_go]; rfl) rfl rfl

theorem iterRun_unfolds (t : TrieState) (db : NodeDb) {h : LazyNodeHash} {tree : NTree}
    (hu : Unfolds t db h tree) :
    ∀ rest fuel, iterRun t db (tree.size + fuel) (h :: rest) =
      (tree.dfsRightFirst.map .ok) ++ iterRun t db fuel rest := by
  induction hu with
  | term h n hf hb =>
    intro rest fuel
    rw [show (NTree.term n).size + fuel = fuel + 1 from by simp [NTree.size]; omega]
    rw [iterRun, hf]
    cases hd : n.data with
    | empty => simp [NTree.dfsRightFirst, hd]
    | leaf l => simp [NTree.dfsRightFirst, hd]
    | branch b =>
      exfalso
      rw [Node.is_branch, hd] at hb
      exact Bool.noConfusion hb
  | br h n b tl tr hf hd hul hur ihl ihr =>
    intro rest fuel
    rw [show (NTree.br n tl tr).size + fuel = (tr.size + (tl.size + fuel)) + 1 from by
      simp [NTree.size]; omega]
    rw [iterRun, hf]
    simp only [hd]
    rw [ihr (b.child_left :: rest) (tl.size + fuel)]
    rw [ihl rest fuel]
    simp [NTree.dfsRightFirst]

/-- C5 (amended): the committed-trie iterator is a depth-first traversal
in which, at each branch, the left child is pushed before the right child,
so the right child is popped first and nodes are yielded in right-first
preorder; running the iterator yields exactly the depth-first node list of
the root's finite unfolding (each node exactly once). Iteration is a pure
function of the trie state and the store, so it cannot mutate the trie. -/
theorem c5_iterator_dfs (t : TrieState) (db : NodeDb) (tree : NTree)
    (hu : Unfolds t db t.root tree) :
    iterRun t db tree.size (iterStart t) = tree.dfsRightFirst.map .ok := by
  have h := iterRun_unfolds t db hu [] 0
  have h0 : iterRun t db 0 [] = [] := rfl
  rw [h0, List.append_nil] at h
  simpa [iterStart] using h

/-- C5 (counterexample): on a two-leaf trie the iterator yields the root,
then the right leaf, then the left leaf — the right child is popped first,
so the traversal is right-first, not left-first as claimed. -/
theorem c5_counterexample :
    iterRun (cleanTrie iterHashRoot) iterDb 3 (iterStart (cleanTrie iterHashRoot))
      = [.ok iterRoot, .ok iterLeafR, .ok iterLeafL]
    ∧ iterLeafR ≠ iterLeafL := by
  constructor
  · rfl
  · decide

theorem c5_witness :
    iterRun (cleanTrie iterHashRoot) iterDb 3 (iterStart (cleanTrie iterHashRoot)) =
      (NTree.br iterRoot (.term iterLeafL) (.term iterLeafR)).dfsRightFirst.map .ok := by
  have hu : Unfolds (cleanTrie iterHashRoot) iterDb (cleanTrie iterHashRoot).root
      (.br iterRoot (.term iterLeafL) (.term iterLeafR)) := by
    refine Unfolds.br _ iterRoot
      { node_type := .BranchLTRT, child_left := .hash iterHashL, child_right := .hash iterHashR }
      _ _ rfl rfl ?_ ?_
    · exact Unfolds.term _ iterLeafL rfl rfl
    · exact Unfolds.term _ iterLeafR rfl rfl
  exact c5_iterator_dfs _ _ _ hu

theorem writeSlice_zkZero (s : List Nat) :
    writeSlice zkZero 16 s = List.replicate 16 0 ++ s ++ List.replicate (16 - s.length) 0 := by
  unfold writeSlice
  have h1 : zkZero.take 16 = List.replicate 16 0 := by decide
  have h2 : zkZero.drop (16 + s.length) = List.replicate (16 - s.length) 0 := by
    unfold zkZero HASH_SIZE
    rw [List.drop_replicate]
    congr 1
    omega
  rw [h1, h2]

theorem hashH_ok_of_lt (perm : Nat → Nat → Nat → Nat) (kind : Nat) (lo hi : ZkHash)
    (hlo : leToNat lo.reverse < pBN) (hhi : leToNat hi.reverse < pBN) :
    hashH perm kind lo hi =
      .ok (fr_as_canonical_repr
        (hash_with_domain perm (leToNat lo.reverse) (leToNat hi.reverse) kind)) := by
  unfold hashH raw_hash fr_from_repr_vartime
  rw [if_pos hlo, if_pos hhi]
  rfl

theorem leToNat_halfpad (pre : List Nat) (k : Nat) (hpre : ∀ x ∈ pre, x < 256)
    (hlen : k + pre.length ≤ 16) :
    leToNat ((List.replicate 16 0 ++ pre ++ List.replicate k 0).reverse) < pBN := by
  rw [List.reverse_append, List.reverse_append, List.reverse_replicate, List.reverse_replicate]
  rw [leToNat_append, leToNat_replicate_zero]
  have h1 : leToNat (pre.reverse ++ List.replicate 16 0) = leToNat pre.reverse := by
    rw [leToNat_append, leToNat_replicate_zero]
    ring
  rw [h1]
  have h2 : leToNat pre.reverse < 256 ^ pre.length := by
    have := leToNat_lt_of_bytes pre.reverse (fun x hx => hpre x (List.mem_reverse.mp hx))
    simpa using this
  have h3 : (256 : Nat) ^ (List.replicate k (0 : Nat)).length * leToNat pre.reverse
      < 256 ^ 16 := by
    simp only [List.length_replicate]
    calc 256 ^ k * leToNat pre.reverse < 256 ^ k * 256 ^ pre.length :=
          mul_lt_mul_of_pos_left h2 (pow_pos (by omega) k)
    _ = 256 ^ (k + pre.length) := by rw [pow_add]
    _ ≤ 256 ^ 16 := Nat.pow_le_pow_right (by omega) hlen
  have h4 : (256 : Nat) ^ 16 < pBN := by decide
  omega

theorem leToNat_zkZero_reverse : leToNat (List.replicate 32 (0 : Nat)).reverse = 0 := by
  rw [List.reverse_replicate, leToNat_replicate_zero]

/-- C7: for `|b| ≤ 32`, `hash_bytes` succeeds and returns
`hash(512, [v_lo, v_hi])` with the halves laid out in byte positions
`[16, 32)` (for `|b| > 16`, `v_lo` holds `b[0..16]` and `v_hi` holds
`b[16..]` from position 16 on; for `|b| ≤ 16`, `v_lo` holds `b` at
positions `[16, 16+|b|)` and `v_hi` is all zero); for `|b| > 32` it fails
with the byte-length error, which is distinct from the field-element
error. -/
theorem c7_hash_bytes (perm : Nat → Nat → Nat → Nat) (b : List Nat)
    (hbytes : ∀ x ∈ b, x < 256) :
    (b.length ≤ 32 → b.length > 16 →
      hash_bytes perm b =
        hashH perm 512 (List.replicate 16 0 ++ b.take 16)
          (List.replicate 16 0 ++ b.drop 16 ++ List.replicate (32 - b.length) 0)
      ∧ ∃ r, hash_bytes perm b = .ok r)
    ∧ (b.length ≤ 16 →
      hash_bytes perm b =
        hashH perm 512 (List.replicate 16 0 ++ b ++ List.replicate (16 - b.length) 0)
          (List.replicate 32 0)
      ∧ ∃ r, hash_bytes perm b = .ok r)
    ∧ (b.length > 32 →
      hash_bytes perm b = .error (.InvalidByteLength b.length)
      ∧ .error (.InvalidByteLength b.length) ≠
          (.error .InvalidFieldElement : Except PoseidonError ZkHash)) := by
  refine ⟨?_, ?_, ?_⟩
  · intro h32 h16
    have hns : ¬ (b.length > HASH_SIZE) := by
      simp only [HASH_SIZE]
      omega
    have htk : (b.take 16).length = 16 := by
      simp [List.length_take]
      omega
    have hdp : (b.drop 16).length = b.length - 16 := by
      simp [List.length_drop]
    have hlo : writeSlice zkZero 16 (b.take 16) = List.replicate 16 0 ++ b.take 16 := by
      rw [writeSlice_zkZero, htk]
      simp
    have hhi : writeSlice zkZero 16 (b.drop 16) =
        List.replicate 16 0 ++ b.drop 16 ++ List.replicate (32 - b.length) 0 := by
      rw [writeSlice_zkZero, hdp]
      congr 2
      omega
    have hmain : hash_bytes perm b =
        hashH perm 512 (List.replicate 16 0 ++ b.take 16)
          (List.replicate 16 0 ++ b.drop 16 ++ List.replicate (32 - b.length) 0) := by
      unfold hash_bytes
      rw [if_neg hns]
      simp only [if_pos h16]
      rw [hlo, hhi]
      rfl
    refine ⟨hmain, ?_⟩
    rw [hmain]
    rw [hashH_ok_of_lt]
    · exact ⟨_, rfl⟩
    · have := leToNat_halfpad (b.take 16) 0 (fun x hx => hbytes x (List.mem_of_mem_take hx))
        (by omega)
      simpa using this
    · exact leToNat_halfpad (b.drop 16) (32 - b.length)
        (fun x hx => hbytes x (List.mem_of_mem_drop hx)) (by omega)
  · intro h16
    have hns : ¬ (b.length > HASH_SIZE) := by
      simp only [HASH_SIZE]
      omega
    have hng : ¬ (b.length > 16) := by omega
    have hlo : writeSlice zkZero 16 b =
        List.replicate 16 0 ++ b ++ List.replicate (16 - b.length) 0 := writeSlice_zkZero b
    have hmain : hash_bytes perm b =
        hashH perm 512 (List.replicate 16 0 ++ b ++ List.replicate (16 - b.length) 0)
          (List.replicate 32 0) := by
      unfold hash_bytes
      rw [if_neg hns]
      simp only [if_neg hng]
      rw [hlo]
      rfl
    refine ⟨hmain, ?_⟩
    rw [hmain]
    rw [hashH_ok_of_lt]
    · exact ⟨_, rfl⟩
    · exact leToNat_halfpad b (16 - b.length) hbytes (by omega)
    · rw [leToNat_zkZero_reverse]
      decide
  · intro h32
    constructor
    · unfold hash_bytes
      rw [if_pos (by simp only [HASH_SIZE]; omega)]
    · simp

theorem c7_witness :
    (∀ x ∈ [255, 17], x < 256)
    ∧ ∃ r, hash_bytes (fun _ _ _ => 0) [255, 17] = .ok r :=
  ⟨by decide, ((c7_hash_bytes (fun _ _ _ => 0) [255, 17] (by decide)).2.1 (by decide)).2⟩

theorem drop_length_sub_one {α : Type} : ∀ (l : List α) (h : l ≠ []),
    l.drop (l.length - 1) = [l.getLast h]
  | [a], _ => rfl
  | a :: b :: t, _ => by
    have h2 : (b :: t) ≠ [] := by simp
    have heq : (a :: b :: t).drop ((a :: b :: t).length - 1) =
        (b :: t).drop ((b :: t).length - 1) := by
      simp [List.length_cons]
    rw [heq, drop_length_sub_one (b :: t) h2, List.getLast_cons h2]

theorem hbaLeaves_eq_spec (perm : Nat → Nat → Nat → Nat) (flag : Nat) :
    ∀ l i, hbaLeaves perm flag l i = hbaLeavesSpec perm flag l i := by
  intro l
  induction l with
  | nil => intro i; rfl
  | cons b rest ih =>
    intro i
    unfold hbaLeaves hbaLeavesSpec
    have hcond : ((decide (i ≤ 24) && ((flag &&& (1 <<< i)) != 0)) = true) =
        (i ≤ 24 ∧ Nat.testBit flag i) := by
      rw [mask_testBit]
      by_cases h1 : i ≤ 24 <;> by_cases h2 : Nat.testBit flag i <;> simp [h1, h2]
    simp only [hcond]
    rw [ih (i + 1)]

theorem hbaLeavesSpec_length (perm : Nat → Nat → Nat → Nat) (flag : Nat) :
    ∀ l i hs, hbaLeavesSpec perm flag l i = .ok hs → hs.length = l.length := by
  intro l
  induction l with
  | nil =>
    intro i hs h
    injection h with h
    rw [← h]
  | cons b rest ih =>
    intro i hs h
    unfold hbaLeavesSpec at h
    cases hfirst : (if i ≤ 24 ∧ Nat.testBit flag i then hash_bytes perm b
        else new_hash_try_from_bytes b) with
    | error e =>
      rw [hfirst] at h
      exact absurd h (by simp)
    | ok v =>
      rw [hfirst] at h
      cases hrest : hbaLeavesSpec perm flag rest (i + 1) with
      | error e =>
        rw [hrest] at h
        exact absurd h (by simp)
      | ok tl =>
        rw [hrest] at h
        injection h with h
        rw [← h]
        simp [ih (i + 1) tl hrest]

theorem roundSpec_length (perm : Nat → Nat → Nat → Nat) (d : Nat) :
    ∀ N l l', l.length ≤ N → roundSpec perm d l = .ok l' →
      l'.length = (l.length + 1) / 2 := by
  intro N
  induction N with
  | zero =>
    intro l l' hlen h
    have : l = [] := List.length_eq_zero.mp (by omega)
    subst this
    injection h with h
    rw [← h]
    rfl
  | succ k ih =>
    intro l l' hlen h
    match l with
    | [] =>
      injection h with h
      rw [← h]
      rfl
    | [x] =>
      injection h with h
      rw [← h]
      simp
    | a :: b :: rest =>
      unfold roundSpec at h
      cases hh : hashH perm d a b with
      | error e =>
        rw [hh] at h
        exact absurd h (by simp)
      | ok hv =>
        rw [hh] at h
        cases hr : roundSpec perm d rest with
        | error e =>
          rw [hr] at h
          exact absurd h (by simp)
        | ok tl =>
          rw [hr] at h
          injection h with h
          have hlenr : rest.length ≤ k := by
            simp only [List.length_cons] at hlen
            omega
          have := ih rest tl hlenr hr
          rw [← h]
          simp only [List.length_cons, this]
          omega

theorem reduceSpec_singleton (perm : Nat → Nat → Nat → Nat) (d : Nat) (f : Nat) (x : ZkHash) :
    reduceSpec perm d f [x] = .ok x := by
  cases f <;> rfl

theorem reduceSpec_fuel (perm : Nat → Nat → Nat → Nat) (d : Nat) :
    ∀ N l f1 f2, l.length ≤ N → l ≠ [] → l.length ≤ f1 → l.length ≤ f2 →
      reduceSpec perm d f1 l = reduceSpec perm d f2 l := by
  intro N
  induction N with
  | zero =>
    intro l f1 f2 hlen hne _ _
    exact absurd (List.length_eq_zero.mp (by omega)) hne
  | succ k ih =>
    intro l f1 f2 hlen hne hf1 hf2
    match l with
    | [] => exact absurd rfl hne
    | [x] => rw [reduceSpec_singleton, reduceSpec_singleton]
    | a :: b :: rest =>
      have hL : (a :: b :: rest).length ≥ 2 := by simp
      obtain ⟨f1', rfl⟩ : ∃ f1', f1 = f1' + 1 := ⟨f1 - 1, by omega⟩
      obtain ⟨f2', rfl⟩ : ∃ f2', f2 = f2' + 1 := ⟨f2 - 1, by omega⟩
      show reduceSpec perm d (f1' + 1) (a :: b :: rest) =
        reduceSpec perm d (f2' + 1) (a :: b :: rest)
      simp only [reduceSpec]
      cases hr : roundSpec perm d (a :: b :: rest) with
      | error e => rfl
      | ok l' =>
        have hlen' : l'.length = ((a :: b :: rest).length + 1) / 2 :=
          roundSpec_length perm d (k + 1) _ _ hlen hr
        have hne' : l' ≠ [] := by
          intro hc
          rw [hc] at hlen'
          simp at hlen'
          omega
        apply ih l' f1' f2' (by simp at hlen hlen' ⊢; omega) hne'
          (by simp at hlen' hf1 ⊢; omega) (by simp at hlen' hf2 ⊢; omega)

theorem hbaRoundGo_char (perm : Nat → Nat → Nat → Nat) (d : Nat) (orig : List ZkHash) :
    ∀ j i res, orig.length / 2 - i = j → res.length = i → i ≤ orig.length / 2 →
      hbaRoundGo perm d (res ++ orig.drop i) orig.length i =
        some (match roundSpec perm d ((orig.drop (2 * i)).take (2 * (orig.length / 2 - i))) with
          | .error e => .error e
          | .ok ps => .ok (res ++ ps ++ orig.drop (orig.length / 2))) := by
  intro j
  induction j with
  | zero =>
    intro i res hj hres hle
    have hi : i = orig.length / 2 := by omega
    rw [hbaRoundGo, dif_neg (by omega)]
    rw [show 2 * (orig.length / 2 - i) = 0 from by omega]
    simp only [List.take_zero]
    rw [show roundSpec perm d [] = .ok [] from rfl]
    simp only [List.append_nil]
    rw [hi]
  | succ jj ih =>
    intro i res hj hres hle
    have hlt : i < orig.length / 2 := by omega
    have hlen1 : 2 * i < orig.length := by omega
    have hlen2 : 2 * i + 1 < orig.length := by omega
    rw [hbaRoundGo, dif_pos hlt]
    have hg1 : (res ++ orig.drop i).get? (2 * i) = some orig[2 * i] := by
      rw [List.get?_append_right (by omega), hres]
      rw [List.get?_drop]
      rw [show i + (2 * i - i) = 2 * i from by omega]
      rw [List.get?_eq_getElem?]
      exact List.getElem?_eq_getElem hlen1
    have hg2 : (res ++ orig.drop i).get? (2 * i + 1) = some orig[2 * i + 1] := by
      rw [List.get?_append_right (by omega), hres]
      rw [List.get?_drop]
      rw [show i + (2 * i + 1 - i) = 2 * i + 1 from by omega]
      rw [List.get?_eq_getElem?]
      exact List.getElem?_eq_getElem hlen2
    rw [hg1, hg2]
    have hseg : (orig.drop (2 * i)).take (2 * (orig.length / 2 - i)) =
        orig[2 * i] :: orig[2 * i + 1] ::
          ((orig.drop (2 * (i + 1))).take (2 * (orig.length / 2 - (i + 1)))) := by
      rw [List.drop_eq_getElem_cons hlen1]
      rw [List.drop_eq_getElem_cons hlen2]
      rw [show 2 * (orig.length / 2 - i) = (2 * (orig.length / 2 - (i + 1)) + 1) + 1 from by
        omega]
      rw [List.take_succ_cons, List.take_succ_cons]
      rw [show 2 * i + 1 + 1 = 2 * (i + 1) from by omega]
    rw [hseg]
    cases hh : hashH perm d orig[2 * i] orig[2 * i + 1] with
    | error e =>
      have hrs : roundSpec perm d (orig[2 * i] :: orig[2 * i + 1] ::
          ((orig.drop (2 * (i + 1))).take (2 * (orig.length / 2 - (i + 1))))) = .error e := by
        rw [roundSpec, hh]
      rw [hrs]
      simp only [hh]
    | ok hv =>
      simp only [hh]
      have hset : (res ++ orig.drop i).set i hv = (res ++ [hv]) ++ orig.drop (i + 1) := by
        rw [List.set_append_right _ _ (by omega)]
        rw [show i - res.length = 0 from by omega]
        rw [List.drop_eq_getElem_cons (show i < orig.length from by omega)]
        rw [List.set_cons_zero]
        simp
      rw [hset]
      have ihres := ih (i + 1) (res ++ [hv]) (by omega) (by simp [hres]) (by omega)
      rw [ihres]
      have hr : roundSpec perm d (orig[2 * i] :: orig[2 * i + 1] ::
          ((orig.drop (2 * (i + 1))).take (2 * (orig.length / 2 - (i + 1))))) =
          (match roundSpec perm d
              ((orig.drop (2 * (i + 1))).take (2 * (orig.length / 2 - (i + 1)))) with
            | .error e => .error e
            | .ok tl => .ok (hv :: tl)) := by
        rw [roundSpec, hh]
      rw [hr]
      cases hrs : roundSpec perm d
          ((orig.drop (2 * (i + 1))).take (2 * (orig.length / 2 - (i + 1)))) with
      | error e => rfl
      | ok tl => simp

theorem roundSpec_split (perm : Nat → Nat → Nat → Nat) (d : Nat) :
    ∀ N l, l.length ≤ N →
      roundSpec perm d l =
        (match roundSpec perm d (l.take (2 * (l.length / 2))) with
          | .error e => .error e
          | .ok ps => .ok (ps ++ l.drop (2 * (l.length / 2)))) := by
  intro N
  induction N with
  | zero =>
    intro l hl
    have : l = [] := List.length_eq_zero.mp (by omega)
    subst this
    rfl
  | succ k ih =>
    intro l hl
    match l with
    | [] => rfl
    | [x] => simp [roundSpec]
    | a :: b :: rest =>
      have hlr : rest.length ≤ k := by
        simp only [List.length_cons] at hl
        omega
      have htake : (a :: b :: rest).take (2 * ((a :: b :: rest).length / 2)) =
          a :: b :: rest.take (2 * (rest.length / 2)) := by
        rw [show 2 * ((a :: b :: rest).length / 2) = (2 * (rest.length / 2) + 1) + 1 from by
          simp only [List.length_cons]
          omega]
        rw [List.take_succ_cons, List.take_succ_cons]
      have hdrop : (a :: b :: rest).drop (2 * ((a :: b :: rest).length / 2)) =
          rest.drop (2 * (rest.length / 2)) := by
        rw [show 2 * ((a :: b :: rest).length / 2) = 2 * (rest.length / 2) + 2 from by
          simp only [List.length_cons]
          omega]
        rfl
      rw [htake, hdrop]
      cases hh : hashH perm d a b with
      | error e =>
        rw [show roundSpec perm d (a :: b :: rest) = .error e from by rw [roundSpec, hh]]
        rw [show roundSpec perm d (a :: b :: rest.take (2 * (rest.length / 2))) = .error e from by
          rw [roundSpec, hh]]
      | ok hv =>
        have h1 : roundSpec perm d (a :: b :: rest) =
            (match roundSpec perm d rest with
              | .error e => .error e
              | .ok tl => .ok (hv :: tl)) := by
          rw [roundSpec, hh]
        have h2 : roundSpec perm d (a :: b :: rest.take (2 * (rest.length / 2))) =
            (match roundSpec perm d (rest.take (2 * (rest.length / 2))) with
              | .error e => .error e
              | .ok tl => .ok (hv :: tl)) := by
          rw [roundSpec, hh]
        rw [h1, h2, ih rest hlr]
        cases hrs : roundSpec perm d (rest.take (2 * (rest.length / 2))) with
        | error e => rfl
        | ok tl => simp

theorem reduceSpec_step (perm : Nat → Nat → Nat → Nat) (d : Nat) (f : Nat)
    (l : List ZkHash) (h2 : l.length ≥ 2) :
    reduceSpec perm d (f + 1) l =
      (match roundSpec perm d l with
        | .error e => .error e
        | .ok l' => reduceSpec perm d f l') := by
  match l with
  | a :: b :: rest => simp only [reduceSpec]

theorem hbaLoop_spec (perm : Nat → Nat → Nat → Nat) (d : Nat) :
    ∀ N hashes, hashes.length ≤ N → hashes ≠ [] →
      hbaLoop perm d hashes =
        some (match reduceSpec perm d hashes.length hashes with
          | .error e => .error e
          | .ok x => .ok [x]) := by
  intro N
  induction N with
  | zero =>
    intro hashes h0 hne
    exact absurd (List.length_eq_zero.mp (by omega)) hne
  | succ k ih =>
    intro hashes hlen hne
    by_cases h1 : hashes.length > 1
    · rw [hbaLoop, dif_pos h1]
      have hchar := hbaRoundGo_char perm d hashes (hashes.length / 2) 0 [] (by omega) rfl
        (by omega)
      simp only [List.drop_zero, List.nil_append, Nat.mul_zero, Nat.sub_zero] at hchar
      simp only [hchar]
      have hsplit := roundSpec_split perm d hashes.length hashes (le_refl _)
      have hstep := reduceSpec_step perm d (hashes.length - 1) hashes (by omega)
      rw [show hashes.length - 1 + 1 = hashes.length from by omega] at hstep
      cases hrs : roundSpec perm d (hashes.take (2 * (hashes.length / 2))) with
      | error e =>
        rw [hrs] at hsplit
        replace hsplit : roundSpec perm d hashes = .error e := by rw [hsplit]
        simp only [hrs]
        rw [hstep, hsplit]
      | ok ps =>
        rw [hrs] at hsplit
        replace hsplit : roundSpec perm d hashes =
            .ok (ps ++ hashes.drop (2 * (hashes.length / 2))) := by rw [hsplit]
        simp only [hrs]
        have hps : ps.length = hashes.length / 2 := by
          have hlt : (hashes.take (2 * (hashes.length / 2))).length = 2 * (hashes.length / 2) := by
            rw [List.length_take]
            omega
          have := roundSpec_length perm d (hashes.take (2 * (hashes.length / 2))).length _ _
            (le_refl _) hrs
          rw [hlt] at this
          omega
        have hpsne : ps ≠ [] := by
          intro hc
          rw [hc] at hps
          simp at hps
          omega
        by_cases heven : hashes.length % 2 = 0
        · -- even length round
          have hdropnil : hashes.drop (2 * (hashes.length / 2)) = [] := by
            rw [show 2 * (hashes.length / 2) = hashes.length from by omega]
            exact List.drop_length hashes
          rw [hdropnil, List.append_nil] at hsplit
          have hbne : (hashes.length % 2 != 0) = false := by
            simp [heven]
          rw [hbne]
          simp only [Bool.false_eq_true, if_false]
          have htk : (ps ++ hashes.drop (hashes.length / 2)).take
              (hashes.length / 2 + hashes.length % 2) = ps := by
            rw [show hashes.length / 2 + hashes.length % 2 = ps.length from by omega]
            exact List.take_left ps _
          rw [htk]
          rw [ih ps (by omega) hpsne]
          have hred : reduceSpec perm d hashes.length hashes =
              reduceSpec perm d (hashes.length - 1) ps := by
            rw [hstep, hsplit]
          rw [hred]
          rw [reduceSpec_fuel perm d ps.length ps (hashes.length - 1) ps.length (le_refl _)
            hpsne (by omega) (le_refl _)]
        · -- odd length round
          have hodd : hashes.length % 2 = 1 := by omega
          have htailne : hashes.drop (hashes.length / 2) ≠ [] := by
            intro hc
            have := congrArg List.length hc
            simp only [List.length_drop, List.length_nil] at this
            omega
          have hbne : (hashes.length % 2 != 0) = true := by
            simp [hodd]
          rw [hbne]
          simp only [if_true]
          have hlast : (ps ++ hashes.drop (hashes.length / 2)).getLast? =
              some ((hashes.drop (hashes.length / 2)).getLast htailne) := by
            rw [List.getLast?_append_of_ne_nil ps htailne]
            exact List.getLast?_eq_getLast _ htailne
          simp only [hlast]
          have hlastval : (hashes.drop (hashes.length / 2)).getLast htailne =
              hashes.getLast hne := by
            have hdd := drop_length_sub_one (hashes.drop (hashes.length / 2)) htailne
            rw [List.drop_drop] at hdd
            rw [List.length_drop] at hdd
            rw [show hashes.length / 2 + (hashes.length - hashes.length / 2 - 1) =
              hashes.length - 1 from by omega] at hdd
            have hdd2 := drop_length_sub_one hashes hne
            rw [hdd2] at hdd
            injection hdd with hdd
            exact hdd.symm
          have hdl : (ps ++ hashes.drop (hashes.length / 2)).dropLast =
              ps ++ (hashes.drop (hashes.length / 2)).dropLast :=
            List.dropLast_append_of_ne_nil ps htailne
          rw [hdl]
          have hdlne : (hashes.drop (hashes.length / 2)).dropLast ≠ [] := by
            intro hc
            have := congrArg List.length hc
            simp only [List.length_dropLast, List.length_drop, List.length_nil] at this
            omega
          obtain ⟨c, rest2, hcr⟩ := List.exists_cons_of_ne_nil hdlne
          have hset : (ps ++ (hashes.drop (hashes.length / 2)).dropLast).set
              (hashes.length / 2) ((hashes.drop (hashes.length / 2)).getLast htailne) =
              ps ++ ((hashes.drop (hashes.length / 2)).getLast htailne) :: rest2 := by
            rw [List.set_append_right _ _ (by omega)]
            rw [show hashes.length / 2 - ps.length = 0 from by omega]
            rw [hcr, List.set_cons_zero]
          rw [hset]
          have htk : (ps ++ ((hashes.drop (hashes.length / 2)).getLast htailne) :: rest2).take
              (hashes.length / 2 + hashes.length % 2) =
              ps ++ [(hashes.drop (hashes.length / 2)).getLast htailne] := by
            rw [show hashes.length / 2 + hashes.length % 2 = ps.length + 1 from by omega]
            rw [List.take_append]
            rfl
          rw [htk]
          have hlen2 : (ps ++ [(hashes.drop (hashes.length / 2)).getLast htailne]).length =
              hashes.length / 2 + 1 := by
            simp [hps]
          rw [ih (ps ++ [(hashes.drop (hashes.length / 2)).getLast htailne])
            (by rw [hlen2]; omega) (by simp)]
          have hdropval : hashes.drop (2 * (hashes.length / 2)) = [hashes.getLast hne] := by
            rw [show 2 * (hashes.length / 2) = hashes.length - 1 from by omega]
            exact drop_length_sub_one hashes hne
          rw [hdropval] at hsplit
          have hred : reduceSpec perm d hashes.length hashes =
              reduceSpec perm d (hashes.length - 1) (ps ++ [hashes.getLast hne]) := by
            rw [hstep, hsplit]
          rw [hred]
          rw [hlen2, hlastval]
          rw [reduceSpec_fuel perm d (ps ++ [hashes.getLast hne]).length
            (ps ++ [hashes.getLast hne]) (hashes.length - 1)
            (hashes.length / 2 + 1) (le_refl _) (by simp) (by simp [hps]; omega)
            (by simp [hps])]
    · have hx : ∃ x, hashes = [x] := by
        match hashes with
        | [] => exact absurd rfl hne
        | [x] => exact ⟨x, rfl⟩
        | a :: b :: r =>
          exfalso
          simp only [List.length_cons] at h1
          omega
      obtain ⟨x, rfl⟩ := hx
      rw [hbaLoop, dif_neg h1]
      rw [show ([x] : List ZkHash).length = 1 from rfl, reduceSpec_singleton]

theorem hash_bytes_array_eq_spec (perm : Nat → Nat → Nat → Nat)
    (vb : List (List Nat)) (flag : Nat) :
    hash_bytes_array perm vb flag = hash_bytes_array_spec perm vb flag := by
  unfold hash_bytes_array hash_bytes_array_spec
  by_cases he : vb.isEmpty
  · rw [if_pos he, if_pos he]
  · rw [if_neg he, if_neg he]
    rw [hbaLeaves_eq_spec]
    cases hlv : hbaLeavesSpec perm flag vb 0 with
    | error e => simp only [hlv]
    | ok leaves =>
      simp only [hlv]
      have hlvlen : leaves.length = vb.length := hbaLeavesSpec_length perm flag vb 0 leaves hlv
      have hvbne : vb ≠ [] := by
        intro hc
        rw [hc] at he
        exact he rfl
      have hlne : leaves ≠ [] := by
        intro hc
        rw [hc] at hlvlen
        exact hvbne (List.length_eq_zero.mp hlvlen.symm)
      rw [hbaLoop_spec perm (vb.length * HASH_DOMAIN_ELEMS_BASE) leaves.length leaves
        (le_refl _) hlne]
      rw [hlvlen]
      cases hrd : reduceSpec perm (vb.length * HASH_DOMAIN_ELEMS_BASE) vb.length leaves with
      | error e => simp only [hrd]
      | ok x => simp only [hrd, List.get?]

/-- C3: `hash_bytes_array` computes exactly what the specification
states: `leaf_i = hash_bytes(preimages[i])` when `i ≤ 24` and bit `i` of
the compression flags is set, otherwise the preimage is validated as a
field element and used directly; the leaves are then repeatedly
pairwise-reduced with `hash(domain, [left, right])` where
`domain = |preimages| * HASH_DOMAIN_ELEMS_BASE`, an unpaired last element
passing through each round unchanged, and the final single element is
returned. -/
theorem c3_hash_bytes_array (perm : Nat → Nat → Nat → Nat)
    (value_bytes : List (List Nat)) (compression_flag : Nat) :
    hash_bytes_array perm value_bytes compression_flag =
      hash_bytes_array_spec perm value_bytes compression_flag :=
  hash_bytes_array_eq_spec perm value_bytes compression_flag

/-- C10: `hash_bytes_array` panics (models as `none`) exactly on the empty
preimage slice: for every non-empty slice it returns a value — the
assertion, the in-place pairing loop and the final `hashes[0]` access
never fail; and `raw_update` builds its leaf from the caller-supplied
preimage vector with no emptiness guard, so hashing the leaf of an empty
update reaches the panic. -/
theorem c10_hash_bytes_array_total (perm : Nat → Nat → Nat → Nat) :
    (∀ flag, hash_bytes_array perm [] flag = none)
    ∧ (∀ vb flag, vb ≠ [] → (hash_bytes_array perm vb flag).isSome = true)
    ∧ (∀ k vps flags, raw_update_leaf k vps flags = Node.new_leaf k vps flags none)
    ∧ (∀ k vps flags leaf, (raw_update_leaf k vps flags).as_leaf = some leaf →
        leaf.get_or_calc_value_hash perm = hash_bytes_array perm vps flags)
    ∧ (∀ k flags, Node.get_or_calculate_node_hash perm (raw_update_leaf k [] flags) = none) := by
  refine ⟨fun flag => rfl, ?_, fun k vps flags => rfl, ?_, fun k flags => rfl⟩
  · intro vb flag hne
    rw [hash_bytes_array_eq_spec]
    unfold hash_bytes_array_spec
    rw [if_neg (by simpa using hne)]
    rfl
  · intro k vps flags leaf hl
    unfold raw_update_leaf Node.new_leaf Node.as_leaf at hl
    simp only [] at hl
    injection hl with hl
    rw [← hl]
    rfl

theorem c10_witness :
    ([[(5 : Nat)]] ≠ ([] : List (List Nat)))
    ∧ (hash_bytes_array (fun _ _ _ => 0) [[5]] 0).isSome = true :=
  ⟨by decide, (c10_hash_bytes_array_total (fun _ _ _ => 0)).2.1 [[5]] 0 (by decide)⟩

theorem read_bytes_exact (xs rest : List Nat) (n : Nat) (hx : xs.length = n) :
    read_bytes n (xs ++ rest) = .ok (xs, rest) := by
  subst hx
  unfold read_bytes
  rw [if_neg (by simp)]
  rw [List.take_left, List.drop_left]

theorem read_bytes_all (xs : List Nat) (n : Nat) (hx : xs.length = n) :
    read_bytes n xs = .ok (xs, []) := by
  subst hx
  unfold read_bytes
  rw [if_neg (by simp)]
  rw [List.take_length, List.drop_length]

theorem read_u32_le_exact (m : Nat) (rest : List Nat) :
    read_u32_le (natToLe 4 m ++ rest) = .ok (m % 2 ^ 32, rest) := by
  unfold read_u32_le
  have hlen : (natToLe 4 m).length = 4 := natToLe_length 4 m
  rw [if_neg (by simp [hlen])]
  rw [List.take_left' hlen, List.drop_left' hlen]
  rw [leToNat_natToLe]
  rfl

theorem new_hash_try_from_bytes_exact (h : List Nat) (hlen : h.length = 32)
    (hval : leToNat h.reverse < pBN) :
    new_hash_try_from_bytes h = .ok h := by
  unfold new_hash_try_from_bytes
  rw [if_neg (by simp [hlen, HASH_SIZE])]
  rw [show HASH_SIZE - h.length = 0 from by simp [hlen, HASH_SIZE]]
  simp only [List.replicate, List.nil_append]
  unfold fr_from_canonical_repr fr_from_repr_vartime
  rw [if_pos hval]

theorem read_hash_exact (h rest : List Nat) (hlen : h.length = 32)
    (hval : leToNat h.reverse < pBN) :
    read_hash (h ++ rest) = .ok (h, rest) := by
  unfold read_hash
  simp only [read_bytes_exact h rest HASH_SIZE (by simp [hlen, HASH_SIZE]),
    new_hash_try_from_bytes_exact h hlen hval]

theorem read_hash_all (h : List Nat) (hlen : h.length = 32)
    (hval : leToNat h.reverse < pBN) :
    read_hash h = .ok (h, []) := by
  unfold read_hash
  simp only [read_bytes_all h HASH_SIZE (by simp [hlen, HASH_SIZE]),
    new_hash_try_from_bytes_exact h hlen hval]

theorem read_preimages_exact :
    ∀ (vps : List (List Nat)) (rest : List Nat), (∀ vp ∈ vps, vp.length = 32) →
      read_preimages vps.length (vps.flatten ++ rest) = .ok (vps, rest) := by
  intro vps
  induction vps with
  | nil => intro rest _; rfl
  | cons vp vps ih =>
    intro rest hlens
    rw [List.flatten_cons, List.append_assoc]
    show read_preimages (vps.length + 1) (vp ++ (vps.flatten ++ rest)) = _
    unfold read_preimages
    simp only [read_bytes_exact vp _ 32 (hlens vp (by simp)),
      ih rest (fun x hx => hlens x (by simp [hx]))]

/-- C2 (amended): the canonical byte encoding round-trips through the
decoder for every non-empty node satisfying the data-model invariants
(hash fields are valid canonical field elements; branch children are
resolved and the branch `node_type` is a branch tag), provided the leaf
has `1 ≤ N ≤ 255` value preimages and `compress_flags < 2^24`: parsing
`canonical_value(n, true)` yields a node with the same node type and, for
leaves, the same `node_key`, `value_preimages`, `compress_flags` and
`node_key_preimage`, and for branches the same two child hashes. -/
theorem c2_codec_round_trip (n : Node) :
    (∀ leaf, n.data = .leaf leaf →
      leaf.node_key.length = 32 → leToNat leaf.node_key.reverse < pBN →
      (∀ vp ∈ leaf.value_preimages, vp.length = 32) →
      1 ≤ leaf.value_preimages.length → leaf.value_preimages.length ≤ 255 →
      leaf.compress_flags < 2 ^ 24 →
      (∀ kp, leaf.node_key_preimage = some kp → kp.length = 32) →
      ∃ enc, n.canonical_value true = some enc
        ∧ Node.tryFrom enc = .ok (Node.new_leaf leaf.node_key leaf.value_preimages
            leaf.compress_flags leaf.node_key_preimage))
    ∧ (∀ b l r, n.data = .branch b →
      b.node_type ≠ .Leaf → b.node_type ≠ .Empty →
      b.child_left.unwrap_ref = some l → b.child_right.unwrap_ref = some r →
      l.length = 32 → leToNat l.reverse < pBN →
      r.length = 32 → leToNat r.reverse < pBN →
      ∃ enc, n.canonical_value true = some enc
        ∧ Node.tryFrom enc = .ok (Node.new_branch b.node_type (.hash l) (.hash r))) := by
  constructor
  · intro leaf hd hklen hkval hvps hN1 hN2 hflags hkp
    have hmod : (leaf.compress_flags * 256) % 2 ^ 32 = leaf.compress_flags * 256 :=
      Nat.mod_eq_of_lt (by omega)
    have hM32 : leaf.compress_flags * 256 + leaf.value_preimages.length < 2 ^ 32 := by omega
    have hand : (leaf.compress_flags * 256 + leaf.value_preimages.length) &&& 255 =
        leaf.value_preimages.length := by
      rw [show (255 : Nat) = 2 ^ 8 - 1 from rfl, Nat.and_pow_two_sub_one_eq_mod]
      rw [show (2 : Nat) ^ 8 = 256 from rfl]
      omega
    have hshift : (leaf.compress_flags * 256 + leaf.value_preimages.length) >>> 8 =
        leaf.compress_flags := by
      rw [Nat.shiftRight_eq_div_pow]
      rw [show (2 : Nat) ^ 8 = 256 from rfl]
      omega
    cases hkpcase : leaf.node_key_preimage with
    | some kp0 =>
      have hkp0len : kp0.length = 32 := hkp kp0 hkpcase
      have hcanon : n.canonical_value true =
          some ([4] ++ leaf.node_key
            ++ natToLe 4 (leaf.compress_flags * 256 + leaf.value_preimages.length)
            ++ leaf.value_preimages.flatten ++ (32 :: kp0)) := by
        simp only [Node.canonical_value, hd, hkpcase, hmod, hkp0len]
        rfl
      refine ⟨_, hcanon, ?_⟩
      rw [show ([4] ++ leaf.node_key
          ++ natToLe 4 (leaf.compress_flags * 256 + leaf.value_preimages.length)
          ++ leaf.value_preimages.flatten ++ (32 :: kp0)) =
          4 :: (leaf.node_key
            ++ (natToLe 4 (leaf.compress_flags * 256 + leaf.value_preimages.length)
            ++ (leaf.value_preimages.flatten ++ (32 :: kp0)))) from by
        simp [List.append_assoc]]
      unfold Node.tryFrom
      simp only [read_u8, show NodeType.from_u8 4 = some NodeType.Leaf from rfl]
      simp only [read_hash_exact leaf.node_key _ hklen hkval]
      simp only [read_u32_le_exact]
      rw [Nat.mod_eq_of_lt hM32]
      simp only [hand, hshift]
      simp only [read_preimages_exact leaf.value_preimages _ hvps]
      rw [if_pos (by omega : (32 : Nat) > 0)]
      simp only [read_bytes_all kp0 32 hkp0len]
    | none =>
      have hcanon : n.canonical_value true =
          some ([4] ++ leaf.node_key
            ++ natToLe 4 (leaf.compress_flags * 256 + leaf.value_preimages.length)
            ++ leaf.value_preimages.flatten ++ [0]) := by
        simp only [Node.canonical_value, hd, hkpcase, hmod]
        rfl
      refine ⟨_, hcanon, ?_⟩
      rw [show ([4] ++ leaf.node_key
          ++ natToLe 4 (leaf.compress_flags * 256 + leaf.value_preimages.length)
          ++ leaf.value_preimages.flatten ++ [0]) =
          4 :: (leaf.node_key
            ++ (natToLe 4 (leaf.compress_flags * 256 + leaf.value_preimages.length)
            ++ (leaf.value_preimages.flatten ++ [0]))) from by
        simp [List.append_assoc]]
      unfold Node.tryFrom
      simp only [read_u8, show NodeType.from_u8 4 = some NodeType.Leaf from rfl]
      simp only [read_hash_exact leaf.node_key _ hklen hkval]
      simp only [read_u32_le_exact]
      rw [Nat.mod_eq_of_lt hM32]
      simp only [hand, hshift]
      simp only [read_preimages_exact leaf.value_preimages _ hvps]
      rw [if_neg (by omega : ¬ ((0 : Nat) > 0))]
  · intro b l r hd hne1 hne2 hlref hrref hllen hlval hrlen hrval
    have hcanon : n.canonical_value true = some ([b.node_type.toU8] ++ l ++ r) := by
      simp only [Node.canonical_value, hd, hlref, hrref]
    refine ⟨_, hcanon, ?_⟩
    rw [show ([b.node_type.toU8] ++ l ++ r) = b.node_type.toU8 :: (l ++ r) from by
      simp [List.append_assoc]]
    cases hbt : b.node_type with
    | Leaf => exact absurd hbt hne1
    | Empty => exact absurd hbt hne2
    | BranchLTRT =>
      unfold Node.tryFrom
      simp only [NodeType.toU8, read_u8,
        show NodeType.from_u8 6 = some NodeType.BranchLTRT from rfl]
      simp only [read_hash_exact l r hllen hlval, read_hash_all r hrlen hrval]
    | BranchLTRB =>
      unfold Node.tryFrom
      simp only [NodeType.toU8, read_u8,
        show NodeType.from_u8 7 = some NodeType.BranchLTRB from rfl]
      simp only [read_hash_exact l r hllen hlval, read_hash_all r hrlen hrval]
    | BranchLBRT =>
      unfold Node.tryFrom
      simp only [NodeType.toU8, read_u8,
        show NodeType.from_u8 8 = some NodeType.BranchLBRT from rfl]
      simp only [read_hash_exact l r hllen hlval, read_hash_all r hrlen hrval]
    | BranchLBRB =>
      unfold Node.tryFrom
      simp only [NodeType.toU8, read_u8,
        show NodeType.from_u8 9 = some NodeType.BranchLBRB from rfl]
      simp only [read_hash_exact l r hllen hlval, read_hash_all r hrlen hrval]

/-- C2 (counterexample): the round-trip fails as originally claimed. A
leaf with 256 value preimages encodes `mark = 256`, which decodes as zero
preimages and `compress_flags = 1`; a leaf with `compress_flags = 2^24`
encodes `mark = 1` (the shifted flags wrap out of the u32), which decodes
as `compress_flags = 0`. In both cases parsing the canonical encoding
succeeds but yields a different node. -/
theorem c2_counterexample :
    (∃ enc, cexLeaf256.canonical_value true = some enc
      ∧ Node.tryFrom enc = .ok (Node.new_leaf zkZero [] 1 none))
    ∧ (Node.new_leaf zkZero [] 1 none).as_leaf ≠ cexLeaf256.as_leaf
    ∧ (∃ enc, cexLeafFlags.canonical_value true = some enc
      ∧ Node.tryFrom enc = .ok (Node.new_leaf zkZero [List.replicate 32 0] 0 none))
    ∧ (Node.new_leaf zkZero [List.replicate 32 0] 0 none).as_leaf ≠ cexLeafFlags.as_leaf := by
  refine ⟨⟨[4] ++ zkZero ++ natToLe 4 256
      ++ (List.replicate 256 (List.replicate 32 (0 : Nat))).flatten
      ++ (32 :: List.replicate 32 0), ?_, ?_⟩, by decide, ⟨_, rfl, rfl⟩, by decide⟩
  · simp only [cexLeaf256, Node.new_leaf, Node.canonical_value, List.length_replicate,
      NodeType.toU8]
    norm_num
  · rw [show ([4] ++ zkZero ++ natToLe 4 256
        ++ (List.replicate 256 (List.replicate 32 (0 : Nat))).flatten
        ++ (32 :: List.replicate 32 0)) =
        4 :: (zkZero ++ (natToLe 4 256
          ++ ((List.replicate 256 (List.replicate 32 (0 : Nat))).flatten
          ++ (32 :: List.replicate 32 0)))) from by
      simp only [List.append_assoc, List.cons_append, List.nil_append]]
    unfold Node.tryFrom
    simp only [read_u8, show NodeType.from_u8 4 = some NodeType.Leaf from rfl]
    simp only [read_hash_exact zkZero _ (by decide) (by decide)]
    simp only [read_u32_le_exact]
    rw [show (256 : Nat) % 2 ^ 32 = 256 from by norm_num]
    simp only [show (256 : Nat) &&& 255 = 0 from by decide,
      show (256 : Nat) >>> 8 = 1 from by decide]
    simp only [read_preimages]
    rw [show (List.replicate 256 (List.replicate 32 (0 : Nat))).flatten
        ++ (32 :: List.replicate 32 0) =
        0 :: (List.replicate 31 0
          ++ ((List.replicate 255 (List.replicate 32 (0 : Nat))).flatten
          ++ (32 :: List.replicate 32 0))) from by
      rw [show (List.replicate 256 (List.replicate 32 (0 : Nat))) =
        (List.replicate 32 (0 : Nat)) :: List.replicate 255 (List.replicate 32 (0 : Nat))
        from rfl]
      rw [List.flatten_cons]
      rw [show (List.replicate 32 (0 : Nat)) = 0 :: List.replicate 31 0 from rfl]
      simp only [List.append_assoc, List.cons_append, List.nil_append]]
    simp only [read_u8]
    rw [if_neg (by omega : ¬ ((0 : Nat) > 0))]

theorem c2_witness :
    (∃ enc, wLeafC2.canonical_value true = some enc
      ∧ Node.tryFrom enc = .ok (Node.new_leaf zkZero [List.replicate 32 0] 1
          (some (List.replicate 32 0))))
    ∧ (∃ enc, wBranchC2.canonical_value true = some enc
      ∧ Node.tryFrom enc = .ok (Node.new_branch .BranchLTRB (.hash zkZero)
          (.hash (List.replicate 31 0 ++ [1])))) := by
  constructor
  · exact (c2_codec_round_trip wLeafC2).1
      { node_key := zkZero, node_key_preimage := some (List.replicate 32 0),
        value_preimages := [List.replicate 32 0], compress_flags := 1, value_hash := none }
      rfl (by decide) (by decide) (by decide) (by decide) (by decide) (by decide)
      (fun kp hkp => by injection hkp with h; rw [← h]; decide)
  · exact (c2_codec_round_trip wBranchC2).2
      { node_type := .BranchLTRB, child_left := .hash zkZero,
        child_right := .hash (List.replicate 31 0 ++ [1]) }
      zkZero (List.replicate 31 0 ++ [1]) rfl (by decide) (by decide) rfl rfl
      (by decide) (by decide) (by decide) (by decide)

end ZkTrieNg
